import Mathlib

/-!
Verification of the incremental documentation cache core
(merkle-tree / manifest / staging / lock / update command).

The TypeScript sources are shallowly embedded: JS objects become
structures with `Option` fields for optional properties, JS
`Record<string, T>` maps become association lists in insertion order,
in-place mutation becomes explicit state passing, and effectful code
(file writes, the external LLM processor) is modelled by explicit
operation traces and outcome oracles.
-/

namespace CodeDocs

/-- Audience summary payload (types/index.ts `Summary`). -/
structure Summary where
  content : String
  hash : String
  tokens : Nat
  model : String
  generatedAt : String
  deriving DecidableEq, Repr

/-- Optional per-audience summaries (types/index.ts `Summaries`). -/
structure Summaries where
  engineering : Option Summary := none
  product : Option Summary := none
  executive : Option Summary := none
  deriving DecidableEq, Repr

/-- Node kind discriminator for `MerkleNode.type`. -/
inductive NodeType where
  | file
  | directory
  deriving DecidableEq, Repr

/-- One tree node (types/index.ts `MerkleNode`); optional JS properties
become `Option` fields. -/
structure MerkleNode where
  path : String
  type : NodeType
  fileHash : Option String := none
  childrenHash : Option String := none
  children : Option (List String) := none
  lastAnalyzed : Option String := none
  summaries : Option Summaries := none
  deriving DecidableEq, Repr

/-- Aggregate counters of a manifest (types/index.ts `Manifest.stats`). -/
structure ManifestStats where
  totalFiles : Nat
  totalTokensUsed : Nat
  totalCost : Nat
  deriving DecidableEq, Repr

/-- A JS `Record<string, α>`: association list in insertion order with
(by construction in JS) unique string keys. -/
abbrev RecordMap (α : Type) : Type := List (String × α)

/-- Key lookup, i.e. JS `record[key]` (yielding `undefined` as `none`). -/
def lookupR {α : Type} (t : RecordMap α) (p : String) : Option α :=
  List.lookup p t

/-- In-place update of the value at an existing key; a missing key leaves
the record unchanged (models mutating `record[key]` when present). -/
def updateR {α : Type} (t : RecordMap α) (p : String) (f : α → α) : RecordMap α :=
  t.map (fun kv => if kv.1 = p then (kv.1, f kv.2) else kv)

/-- The key list of a record (JS `Object.keys`). -/
def keysR {α : Type} (t : RecordMap α) : List String :=
  t.map (·.1)

/-- The value list of a record (JS `Object.values`). -/
def valuesR {α : Type} (t : RecordMap α) : List α :=
  t.map (·.2)

/-- The manifest (types/index.ts `Manifest`); `confluencePages` is omitted
as nothing in the verified core reads or writes it. -/
structure Manifest where
  version : String
  generatedAt : String
  codeRootHash : String
  gitCommit : Option String := none
  nodes : RecordMap MerkleNode
  stats : ManifestStats
  deriving DecidableEq, Repr

/-- JS `a || b` on two optional strings: `a` falls through when it is
`undefined` or the empty string (falsy). -/
def jsOrS : Option String → Option String → Option String
  | some s, b => if s = "" then b else some s
  | none, b => b

/-- JS `a || b || ''` collapsed to a plain string. -/
def jsOrS3 (a b : Option String) : String :=
  match jsOrS a (jsOrS b (some "")) with
  | some s => s
  | none => ""

/-- The fingerprint expression `node.fileHash || node.childrenHash` used by
`detectChanges` (manifest.ts line 110). -/
def nodeHash (n : MerkleNode) : Option String :=
  jsOrS n.fileHash n.childrenHash

/-- The fingerprint expression `child.fileHash || child.childrenHash || ''`
used when aggregating directory hashes (merkle-tree.ts line 129). -/
def fpOf (n : MerkleNode) : String :=
  jsOrS3 n.fileHash n.childrenHash

/-! ### hash.ts -/

/-- The model of JS `Array.prototype.sort()` on strings: the unique
lexicographically sorted permutation. -/
def sortStrings (l : List String) : List String :=
  List.insertionSort (· ≤ ·) l

/-- Embedding of hash.ts `computeDirectoryHash`: sort the children hashes,
concatenate and digest.  The SHA-256 digest itself is abstracted as a
function parameter. -/
def computeDirectoryHash (digest : String → String) (childrenHashes : List String) : String :=
  digest (String.join (sortStrings childrenHashes))

/-! ### manifest.ts `detectChanges`

The source mutates `currentTree` in place (copying cached summaries onto
unchanged nodes); the embedding passes the tree state explicitly and
returns the post-call tree alongside the classification. -/

/-- Result shape of `detectChanges` (manifest.ts `ChangeDetection`). -/
structure ChangeDetection where
  new : List MerkleNode
  changed : List MerkleNode
  unchanged : List MerkleNode
  deleted : List String
  deriving DecidableEq, Repr

/-- Copy of the cached node's artifact onto an unchanged current node
(manifest.ts lines 117-118). -/
def carryArtifact (cn sn : MerkleNode) : MerkleNode :=
  { cn with summaries := sn.summaries, lastAnalyzed := sn.lastAnalyzed }

/-- The `for (const [path, currentNode] of Object.entries(currentTree))`
loop of `detectChanges`, returning the new / changed / unchanged lists and
the post-mutation tree entries. -/
def detectLoop (mnodes : RecordMap MerkleNode) :
    List (String × MerkleNode) →
    List MerkleNode × List MerkleNode × List MerkleNode × List (String × MerkleNode)
  | [] => ([], [], [], [])
  | (p, cn) :: rest =>
    let r := detectLoop mnodes rest
    match lookupR mnodes p with
    | none => (cn :: r.1, r.2.1, r.2.2.1, (p, cn) :: r.2.2.2)
    | some sn =>
      if nodeHash cn ≠ nodeHash sn then
        (r.1, cn :: r.2.1, r.2.2.1, (p, cn) :: r.2.2.2)
      else
        (r.1, r.2.1, carryArtifact cn sn :: r.2.2.1, (p, carryArtifact cn sn) :: r.2.2.2)

/-- Embedding of manifest.ts `detectChanges` (state-passing: the second
component is the `currentTree` after the in-place mutation). -/
def detectChanges (currentTree : RecordMap MerkleNode) (manifest : Option Manifest) :
    ChangeDetection × RecordMap MerkleNode :=
  match manifest with
  | none => (⟨valuesR currentTree, [], [], []⟩, currentTree)
  | some m =>
    let r := detectLoop m.nodes currentTree
    let tr := r.2.2.2
    let del := (keysR m.nodes).filter (fun p => (lookupR tr p).isNone)
    (⟨r.1, r.2.1, r.2.2.1, del⟩, tr)

/-- Manifest-side node rewrite performed by the `detectChanges` loop: an
unchanged node receives the cached summaries and timestamp, every other
node is untouched. -/
def mutateNode (mnodes : RecordMap MerkleNode) (pc : String × MerkleNode) :
    String × MerkleNode :=
  match lookupR mnodes pc.1 with
  | none => pc
  | some sn =>
    if nodeHash pc.2 = nodeHash sn then (pc.1, carryArtifact pc.2 sn) else pc

theorem detectLoop_eq (mnodes : RecordMap MerkleNode) (t : List (String × MerkleNode)) :
    detectLoop mnodes t =
      ((t.filter (fun pc => (lookupR mnodes pc.1).isNone)).map (·.2),
       (t.filter (fun pc =>
          match lookupR mnodes pc.1 with
          | some sn => decide (nodeHash pc.2 ≠ nodeHash sn)
          | none => false)).map (·.2),
       t.filterMap (fun pc =>
          match lookupR mnodes pc.1 with
          | some sn =>
            if nodeHash pc.2 = nodeHash sn then some (carryArtifact pc.2 sn) else none
          | none => none),
       t.map (mutateNode mnodes)) := by
  induction t with
  | nil => rfl
  | cons pc rest ih =>
    obtain ⟨p, cn⟩ := pc
    simp only [detectLoop, ih]
    cases h : lookupR mnodes p with
    | none => simp [List.filter, List.filterMap, mutateNode, h]
    | some sn =>
      by_cases hh : nodeHash cn = nodeHash sn
      · simp [List.filter, List.filterMap, mutateNode, h, hh]
      · simp [List.filter, List.filterMap, mutateNode, h, hh]

/-- Key sequence is preserved by the in-place mutation of the tree. -/
theorem keys_map_mutateNode (mnodes : RecordMap MerkleNode) (t : List (String × MerkleNode)) :
    keysR (t.map (mutateNode mnodes)) = keysR t := by
  induction t with
  | nil => rfl
  | cons pc rest ih =>
    obtain ⟨p, cn⟩ := pc
    simp only [keysR, List.map_cons] at *
    refine congrArg₂ _ ?_ ih
    unfold mutateNode
    cases lookupR mnodes p with
    | none => rfl
    | some sn =>
      dsimp only
      split <;> rfl

/-- Lookup emptiness only depends on the key sequence. -/
theorem lookupR_isNone_of_keys_eq {α β : Type} (t : List (String × α)) (u : List (String × β))
    (h : keysR t = keysR u) (p : String) : (lookupR t p).isNone = (lookupR u p).isNone := by
  induction t generalizing u with
  | nil => cases u with
    | nil => rfl
    | cons b bu => simp [keysR] at h
  | cons a ta ih =>
    cases u with
    | nil => simp [keysR] at h
    | cons b bu =>
      simp only [keysR, List.map_cons, List.cons.injEq] at h
      obtain ⟨h1, h2⟩ := h
      simp only [lookupR, List.lookup, h1]
      cases p == b.1
      · exact ih bu h2
      · rfl

/-- C1: `detectChanges` classifies each path of the current tree as `new`
when absent from the manifest node map, as `changed` when present with a
differing fingerprint (the `fileHash || childrenHash` expression), and as
`unchanged` when present with an equal fingerprint, in which case the
cached summaries and last-analyzed timestamp are carried unmodified onto
the result node; paths of the manifest absent from the current tree are
returned in `deleted` as path strings only; and with no manifest every
current node is `new` and the other three sets are empty. -/
theorem detectChanges_classifies (t : RecordMap MerkleNode) (m : Manifest) :
    (detectChanges t (some m)).1.new
      = (t.filter (fun pc => (lookupR m.nodes pc.1).isNone)).map (·.2)
  ∧ (detectChanges t (some m)).1.changed
      = (t.filter (fun pc =>
          match lookupR m.nodes pc.1 with
          | some sn => decide (nodeHash pc.2 ≠ nodeHash sn)
          | none => false)).map (·.2)
  ∧ (detectChanges t (some m)).1.unchanged
      = t.filterMap (fun pc =>
          match lookupR m.nodes pc.1 with
          | some sn =>
            if nodeHash pc.2 = nodeHash sn then some (carryArtifact pc.2 sn) else none
          | none => none)
  ∧ (detectChanges t (some m)).1.deleted
      = (keysR m.nodes).filter (fun p => (lookupR t p).isNone)
  ∧ detectChanges t none = (⟨valuesR t, [], [], []⟩, t) := by
  refine ⟨by simp only [detectChanges, detectLoop_eq],
    by simp only [detectChanges, detectLoop_eq],
    by simp only [detectChanges, detectLoop_eq], ?_, rfl⟩
  simp only [detectChanges, detectLoop_eq]
  refine List.filter_congr ?_
  intro p _
  rw [lookupR_isNone_of_keys_eq (t.map (mutateNode m.nodes)) t
    (keys_map_mutateNode m.nodes t) p]

/-- C10: the state-passing rendering of the in-place mutation performed by
`detectChanges`.  The post-call tree rewrites exactly the unchanged nodes
with the cached summaries and timestamp (`mutateNode`), every node of the
returned `unchanged` list is (an alias of) an entry of the post-call tree,
and the path, type, fingerprint and children fields of every node are left
unmodified. -/
theorem detectChanges_frame (t : RecordMap MerkleNode) (m : Manifest) :
    (detectChanges t (some m)).2 = t.map (mutateNode m.nodes)
  ∧ (∀ n ∈ (detectChanges t (some m)).1.unchanged, ∃ p, (p, n) ∈ (detectChanges t (some m)).2)
  ∧ ((detectChanges t (some m)).2).map
      (fun pc => (pc.1, pc.2.path, pc.2.type, pc.2.fileHash, pc.2.childrenHash, pc.2.children))
      = t.map
      (fun pc => (pc.1, pc.2.path, pc.2.type, pc.2.fileHash, pc.2.childrenHash, pc.2.children)) := by
  refine ⟨by simp only [detectChanges, detectLoop_eq], ?_, ?_⟩
  · intro n hn
    simp only [detectChanges, detectLoop_eq, List.mem_filterMap] at hn ⊢
    obtain ⟨pc, hmem, hU⟩ := hn
    refine ⟨pc.1, List.mem_map.mpr ⟨pc, hmem, ?_⟩⟩
    unfold mutateNode
    cases h : lookupR m.nodes pc.1 with
    | none => simp [h] at hU
    | some sn =>
      simp only [h] at hU ⊢
      by_cases hh : nodeHash pc.2 = nodeHash sn
      · simp only [hh, if_true] at hU ⊢
        rw [Option.some_inj] at hU
        rw [hU]
      · simp [hh] at hU
  · simp only [detectChanges, detectLoop_eq, List.map_map]
    refine List.map_congr_left ?_
    intro pc _
    simp only [Function.comp_apply]
    unfold mutateNode
    cases lookupR m.nodes pc.1 with
    | none => rfl
    | some sn =>
      by_cases hh : nodeHash pc.2 = nodeHash sn
      · simp [hh, carryArtifact]
      · simp [hh]

/-- C3: the directory fingerprint is invariant under permutation of the
children hash list, because the list is sorted before being concatenated
and digested. -/
theorem computeDirectoryHash_perm (digest : String → String) (l l' : List String)
    (h : l.Perm l') :
    computeDirectoryHash digest l = computeDirectoryHash digest l' := by
  unfold computeDirectoryHash sortStrings
  have hs : List.insertionSort (· ≤ ·) l = List.insertionSort (· ≤ ·) l' :=
    List.eq_of_perm_of_sorted
      ((List.perm_insertionSort _ l).trans (h.trans (List.perm_insertionSort _ l').symm))
      (List.sorted_insertionSort _ l) (List.sorted_insertionSort _ l')
  rw [hs]

/-- Witness for C3 at a concrete permuted pair of hash lists. -/
theorem computeDirectoryHash_perm_witness :
    (["b", "a"].Perm ["a", "b"])
      ∧ computeDirectoryHash id ["b", "a"] = computeDirectoryHash id ["a", "b"] :=
  ⟨by decide, computeDirectoryHash_perm id ["b", "a"] ["a", "b"] (by decide)⟩

/-! ### lock.ts

The lock file on disk is modelled as `Option (Option LockFile)`:
`none` = no file, `some none` = a file whose contents fail to parse
(`loadLockFile` returns null), `some (some r)` = a parseable record.
Process liveness (`process.kill(pid, 0)`) is an oracle `alive`. -/

/-- The lock record (types `LockFile`, as written by lock.ts
`acquireLock`). -/
structure LockFile where
  pid : Nat
  startedAt : String
  hostname : String
  deriving DecidableEq, Repr

/-- Disk state of the lock path. -/
abbrev LockDisk : Type := Option (Option LockFile)

/-- Ambient process context of the lock module: liveness probe, the
calling process id and host, and the current clock reading. -/
structure LockCtx where
  alive : Nat → Bool
  selfPid : Nat
  selfHost : String
  now : String

/-- Embedding of lock.ts `loadLockFile`: null when the file is absent or
unreadable. -/
def loadLockFile (d : LockDisk) : Option LockFile :=
  d.bind id

/-- Embedding of lock.ts `isLockStale`: no (readable) lock data, or a dead
owner process, means stale. -/
def isLockStale (ctx : LockCtx) (d : LockDisk) : Bool :=
  match loadLockFile d with
  | none => true
  | some r => ! ctx.alive r.pid

/-- Embedding of lock.ts `checkLock` (state-passing: a stale lock file is
deleted).  Returns whether an active lock exists, plus the disk state. -/
def checkLock (ctx : LockCtx) (d : LockDisk) : Bool × LockDisk :=
  match d with
  | none => (false, d)
  | some _ => if isLockStale ctx d then (false, none) else (true, d)

/-- Result of `acquireLock`: success, or the thrown error carrying
`lockInfo?.pid` and `lockInfo?.startedAt`. -/
inductive AcquireResult where
  | ok
  | failed (ownerPid : Option Nat) (ownerStartedAt : Option String)
  deriving DecidableEq, Repr

/-- Embedding of lock.ts `acquireLock`: fail fast when an active lock
exists, otherwise write a record of the caller's pid, hostname and
acquisition time. -/
def acquireLock (ctx : LockCtx) (d : LockDisk) : AcquireResult × LockDisk :=
  let c := checkLock ctx d
  if c.1 then
    let info := loadLockFile c.2
    (.failed (info.map (·.pid)) (info.map (·.startedAt)), c.2)
  else
    (.ok, some (some ⟨ctx.selfPid, ctx.now, ctx.selfHost⟩))

/-- Embedding of lock.ts `releaseLock`: remove the lock file only when the
recorded owner pid equals the calling process's pid; all error paths are
swallowed, so the function is total and never raises. -/
def releaseLock (ctx : LockCtx) (d : LockDisk) : LockDisk :=
  match d with
  | none => d
  | some content =>
    match content with
    | none => d
    | some r => if r.pid = ctx.selfPid then none else d

/-- C8: `acquireLock` fails fast with the existing owner's pid and start
time when the recorded owner process is alive; it succeeds and writes the
caller's record when no lock file exists or when the recorded owner is
dead (the stale file being deleted and treated as absent). -/
theorem acquireLock_spec (ctx : LockCtx) (d : LockDisk) :
    (∀ r, d = some (some r) → ctx.alive r.pid = true →
      acquireLock ctx d = (.failed (some r.pid) (some r.startedAt), d))
  ∧ (d = none →
      acquireLock ctx d = (.ok, some (some ⟨ctx.selfPid, ctx.now, ctx.selfHost⟩)))
  ∧ (∀ r, d = some (some r) → ctx.alive r.pid = false →
      acquireLock ctx d = (.ok, some (some ⟨ctx.selfPid, ctx.now, ctx.selfHost⟩))) := by
  refine ⟨?_, ?_, ?_⟩
  · intro r hd halive
    subst hd
    simp [acquireLock, checkLock, isLockStale, loadLockFile, halive]
  · intro hd
    subst hd
    simp [acquireLock, checkLock]
  · intro r hd hdead
    subst hd
    simp [acquireLock, checkLock, isLockStale, loadLockFile, hdead]

/-- Witness for C8: a live owner makes acquisition fail with that owner's
identity, and acquisition on an absent lock file succeeds. -/
theorem acquireLock_spec_witness :
    acquireLock ⟨fun _ => true, 2, "h", "t"⟩ (some (some ⟨1, "s", "g"⟩))
      = (.failed (some 1) (some "s"), some (some ⟨1, "s", "g"⟩))
  ∧ acquireLock ⟨fun _ => true, 2, "h", "t"⟩ none
      = (.ok, some (some ⟨2, "t", "h"⟩)) :=
  ⟨(acquireLock_spec ⟨fun _ => true, 2, "h", "t"⟩ (some (some ⟨1, "s", "g"⟩))).1
      ⟨1, "s", "g"⟩ rfl rfl,
   (acquireLock_spec ⟨fun _ => true, 2, "h", "t"⟩ none).2.1 rfl⟩

/-- C9: `releaseLock` removes the lock file exactly when the recorded
owner pid is the caller's own pid; an absent, unreadable, or
foreign-owned lock file is left unchanged, and the function is total
(the source swallows all errors). -/
theorem releaseLock_spec (ctx : LockCtx) (d : LockDisk) :
    (∀ r, d = some (some r) → r.pid = ctx.selfPid → releaseLock ctx d = none)
  ∧ (∀ r, d = some (some r) → r.pid ≠ ctx.selfPid → releaseLock ctx d = d)
  ∧ (d = none → releaseLock ctx d = d)
  ∧ (d = some none → releaseLock ctx d = d) := by
  refine ⟨?_, ?_, ?_, ?_⟩
  · intro r hd hpid
    subst hd
    simp [releaseLock, hpid]
  · intro r hd hpid
    subst hd
    simp [releaseLock, hpid]
  · intro hd
    subst hd
    rfl
  · intro hd
    subst hd
    rfl

/-- Witness for C9: the owner's release removes the file, a foreign
process's release leaves it in place. -/
theorem releaseLock_spec_witness :
    releaseLock ⟨fun _ => true, 7, "h", "t"⟩ (some (some ⟨7, "s", "g"⟩)) = none
  ∧ releaseLock ⟨fun _ => true, 8, "h", "t"⟩ (some (some ⟨7, "s", "g"⟩))
      = some (some ⟨7, "s", "g"⟩) :=
  ⟨(releaseLock_spec ⟨fun _ => true, 7, "h", "t"⟩ (some (some ⟨7, "s", "g"⟩))).1
      ⟨7, "s", "g"⟩ rfl rfl,
   (releaseLock_spec ⟨fun _ => true, 8, "h", "t"⟩ (some (some ⟨7, "s", "g"⟩))).2.1
      ⟨7, "s", "g"⟩ rfl (by decide)⟩

/-! ### Persistence crash model (manifest.ts `saveManifest`, staging.ts `saveStaging`)

Each save routine is embedded as the sequence of file-system operations it
performs (serialization of the record to its JSON string is abstracted as
the `content` parameter).  Crash semantics: execution may stop between
operations, or in the middle of a `writeFile`, which then leaves an
arbitrary prefix of the intended content; `renameFile` and `mkdirp` are
atomic. -/

/-- A file-system operation performed by a save routine. -/
inductive FsOp where
  | mkdirp (path : String)
  | writeFile (path : String) (content : String)
  | renameFile (src dst : String)
  deriving DecidableEq, Repr

/-- File-system contents: path to file content, `none` when absent. -/
abbrev FsState : Type := String → Option String

/-- Pointwise update of one path's content. -/
def setFile (st : FsState) (p : String) (c : Option String) : FsState :=
  fun q => if q = p then c else st q

/-- Complete effect of one operation (`mkdirp` never alters file
contents). -/
def applyOp (st : FsState) : FsOp → FsState
  | .mkdirp _ => st
  | .writeFile p c => setFile st p (some c)
  | .renameFile s d => setFile (setFile st d (st s)) s none

/-- Effect of an operation interrupted mid-way: an interrupted write
leaves some prefix of the intended content; an interrupted `mkdirp`
changes nothing; a rename is atomic and has no mid state. -/
inductive PartWrite (st : FsState) : FsOp → FsState → Prop
  | write (p c c₁ : String) (h : ∃ c₂, c₁ ++ c₂ = c) :
      PartWrite st (.writeFile p c) (setFile st p (some c₁))
  | mk (p : String) : PartWrite st (.mkdirp p) st

/-- States observable after a crash at any point of an operation
sequence. -/
inductive CrashResult : FsState → List FsOp → FsState → Prop
  | stop (st : FsState) (ops : List FsOp) : CrashResult st ops st
  | step {st : FsState} {op : FsOp} {ops : List FsOp} {st' : FsState} :
      CrashResult (applyOp st op) ops st' → CrashResult st (op :: ops) st'
  | mid {st : FsState} {op : FsOp} {ops : List FsOp} {st' : FsState} :
      PartWrite st op st' → CrashResult st (op :: ops) st'

/-- Embedding of manifest.ts `saveManifest`: ensure the directory exists,
then write the serialized manifest DIRECTLY to the manifest path. -/
def saveManifestOps (dir manifestPath content : String) : List FsOp :=
  [.mkdirp dir, .writeFile manifestPath content]

/-- Embedding of staging.ts `saveStaging`: ensure the directory exists,
write the serialized staging file to `path + ".tmp"`, then atomically
rename the temp file onto the staging path. -/
def saveStagingOps (dir stagingPath content : String) : List FsOp :=
  [.mkdirp dir, .writeFile (stagingPath ++ ".tmp") content,
   .renameFile (stagingPath ++ ".tmp") stagingPath]

/-- A path never equals itself with the ".tmp" suffix appended. -/
theorem ne_append_tmp (p : String) : p ≠ p ++ ".tmp" := by
  intro he
  have hl := congrArg String.length he
  rw [String.length_append] at hl
  have : String.length ".tmp" = 4 := by decide
  omega

/-- Manifest file contents before the crash scenario of the C4
counterexample. -/
def manifestCrashInit : FsState :=
  fun q => if q = "m.json" then some "OLDDATA" else none

/-- Manifest file contents after the interrupted write of the C4
counterexample: a strict prefix of the new content. -/
def manifestCrashMid : FsState :=
  setFile manifestCrashInit "m.json" (some "NEW")

/-- Counterexample to C4: a crash in the middle of `saveManifest`'s direct
write leaves the manifest file holding a truncated content that is neither
the previous state nor the new state. -/
theorem saveManifest_not_atomic :
    CrashResult manifestCrashInit (saveManifestOps ".docs" "m.json" "NEWCONTENT") manifestCrashMid
  ∧ manifestCrashMid "m.json" ≠ manifestCrashInit "m.json"
  ∧ manifestCrashMid "m.json" ≠ some "NEWCONTENT" := by
  refine ⟨?_, by decide, by decide⟩
  refine CrashResult.step ?_
  exact CrashResult.mid
    (PartWrite.write "m.json" "NEWCONTENT" "NEW" ⟨"CONTENT", by decide⟩)

/-- C4 (amended): `saveStaging` is atomic — after a crash anywhere inside
it, the staging path holds either its previous content or the complete new
content; `saveManifest`, by contrast, performs a direct write to the
manifest path with no temp-then-rename step (so it enjoys no such
guarantee, as `saveManifest_not_atomic` shows). -/
theorem save_atomicity (dir path content : String) (st₀ st' : FsState)
    (h : CrashResult st₀ (saveStagingOps dir path content) st') :
    (st' path = st₀ path ∨ st' path = some content)
  ∧ saveManifestOps dir path content = [.mkdirp dir, .writeFile path content] := by
  refine ⟨?_, rfl⟩
  have hne : path ≠ path ++ ".tmp" := ne_append_tmp path
  cases h with
  | stop => exact Or.inl rfl
  | mid hp => cases hp; exact Or.inl rfl
  | step h2 =>
    cases h2 with
    | stop => exact Or.inl rfl
    | mid hp =>
      cases hp with
      | write _ _ c₁ hc =>
        exact Or.inl (by simp [applyOp, setFile, hne])
    | step h3 =>
      cases h3 with
      | stop => exact Or.inl (by simp [applyOp, setFile, hne])
      | mid hp => cases hp
      | step h4 =>
        cases h4 with
        | stop =>
          refine Or.inr ?_
          simp [applyOp, setFile, hne]

/-- Witness for the amended C4 theorem: crashing immediately (no operation
performed) leaves the old staging content in place. -/
theorem save_atomicity_witness :
    (manifestCrashInit "s.json" = manifestCrashInit "s.json"
      ∨ manifestCrashInit "s.json" = some "X")
  ∧ saveManifestOps ".docs" "s.json" "X" = [.mkdirp ".docs", .writeFile "s.json" "X"] :=
  save_atomicity ".docs" "s.json" "X" manifestCrashInit manifestCrashInit
    (CrashResult.stop _ _)

/-! ### staging.ts -/

/-- A successful per-path staging record (types `StagingEntry`). -/
structure StagingEntry where
  path : String
  fileHash : String
  summaries : Summaries
  completedAt : String
  tokensUsed : Nat
  deriving DecidableEq, Repr

/-- A failed per-path staging record (types `FailedEntry`). -/
structure FailedEntry where
  path : String
  fileHash : String
  error : String
  failedAt : String
  retryCount : Nat
  isRateLimited : Bool
  deriving DecidableEq, Repr

/-- The staging log (types `StagingFile`). -/
structure StagingFile where
  version : String
  startedAt : String
  rootHash : String
  completed : List StagingEntry
  failed : List FailedEntry
  deriving DecidableEq, Repr

/-- Embedding of staging.ts `createStaging` (the clock is passed
explicitly). -/
def createStaging (now rootHash : String) : StagingFile :=
  { version := "1.0.0", startedAt := now, rootHash := rootHash,
    completed := [], failed := [] }

/-- Embedding of staging.ts `addCompletedEntry`. -/
def addCompletedEntry (now : String) (staging : StagingFile) (path fileHash : String)
    (summaries : Summaries) (tokensUsed : Nat) : StagingFile :=
  { staging with
    completed := staging.completed ++ [⟨path, fileHash, summaries, now, tokensUsed⟩] }

/-- Replace the first failed entry with the given path (the source's
`findIndex` + in-place `set` at the found index); `none` when no entry
with that path exists (`findIndex` returned -1). -/
def setFirstFailed (path : String) (entry : FailedEntry) :
    List FailedEntry → Option (List FailedEntry)
  | [] => none
  | f :: rest =>
    if f.path = path then some (entry :: rest)
    else (setFirstFailed path entry rest).map (f :: ·)

/-- Embedding of staging.ts `addFailedEntry`: replace an existing failed
entry for the same path, otherwise append. -/
def addFailedEntry (now : String) (staging : StagingFile) (path fileHash error : String)
    (retryCount : Nat) (isRateLimited : Bool) : StagingFile :=
  let entry : FailedEntry := ⟨path, fileHash, error, now, retryCount, isRateLimited⟩
  match setFirstFailed path entry staging.failed with
  | some newFailed => { staging with failed := newFailed }
  | none => { staging with failed := staging.failed ++ [entry] }

/-- Embedding of staging.ts `getCompletedPaths` (as a list; the source
builds a `Set` used only for membership tests). -/
def getCompletedPaths (staging : StagingFile) : List String :=
  staging.completed.map (·.path)

/-- Embedding of staging.ts `getTotalTokensUsed`. -/
def getTotalTokensUsed (staging : StagingFile) : Nat :=
  staging.completed.foldl (fun sum e => sum + e.tokensUsed) 0

/-! ### manifest.ts `mergeStaging` and `calculateStats` -/

/-- Node rewrite applied when folding one completed staging entry into the
tree copy inside `mergeStaging`. -/
def applyEntry (t : RecordMap MerkleNode) (e : StagingEntry) : RecordMap MerkleNode :=
  updateR t e.path
    (fun n => { n with summaries := some e.summaries, lastAnalyzed := some e.completedAt })

/-- Embedding of manifest.ts `mergeStaging`: fold every completed staging
entry into a copy of the tree (entries whose path is absent from the tree
are skipped by `updateR`), and stamp the manifest. -/
def mergeStaging (now : String) (manifest : Manifest) (tree : RecordMap MerkleNode)
    (staging : StagingFile) : Manifest :=
  { manifest with
    generatedAt := now,
    nodes := staging.completed.foldl applyEntry tree }

/-- Token total of one node's summaries (JS `Object.values(summaries)` over
the present audiences). -/
def sumSummaries (s : Summaries) : Nat :=
  ((s.engineering.map (·.tokens)).getD 0)
    + ((s.product.map (·.tokens)).getD 0)
    + ((s.executive.map (·.tokens)).getD 0)

/-- Embedding of manifest.ts `calculateStats`; the floating-point cost
estimate is abstracted into the function `costOf` of the token total. -/
def calculateStats (costOf : Nat → Nat) (tree : RecordMap MerkleNode) : ManifestStats :=
  let totalFiles := ((valuesR tree).filter (fun n => n.type = .file)).length
  let totalTokensUsed := (valuesR tree).foldl
    (fun sum n => sum + ((n.summaries.map sumSummaries).getD 0)) 0
  { totalFiles := totalFiles, totalTokensUsed := totalTokensUsed,
    totalCost := costOf totalTokensUsed }

/-! ### merkle-tree.ts tree helpers used by the update command -/

/-- Embedding of merkle-tree.ts `getFileNodes`. -/
def getFileNodes (tree : RecordMap MerkleNode) : List MerkleNode :=
  (valuesR tree).filter (fun n => n.type = .file)

/-- Embedding of merkle-tree.ts `getDirectoryNodes`. -/
def getDirectoryNodes (tree : RecordMap MerkleNode) : List MerkleNode :=
  (valuesR tree).filter (fun n => n.type = .directory)

/-- Embedding of merkle-tree.ts `getPathDepth`. -/
def getPathDepth (path : String) : Nat :=
  if path = "." then 0 else (path.splitOn "/").length

/-- Embedding of merkle-tree.ts `sortByDepth`: a stable sort by path depth
(V8's `Array.prototype.sort` is stable). -/
def sortByDepth (nodes : List MerkleNode) (deepestFirst : Bool) : List MerkleNode :=
  if deepestFirst then
    List.insertionSort (fun a b => getPathDepth b.path ≤ getPathDepth a.path) nodes
  else
    List.insertionSort (fun a b => getPathDepth a.path ≤ getPathDepth b.path) nodes

/-! ### update.ts `updateCommand` (the staging/lock-aware version)

The effectful orchestration is modelled as a pure function over the
in-memory state, emitting a chronological trace of the persistence effects
(manifest saves, staging saves, staging clears) and of every invocation of
the external processor.  The external LLM collaborator
(`summarizer.generateAllSummaries` / `generateDirectorySummary`, each
wrapped in `withRetry`) is abstracted as per-path outcome oracles; a
`RateLimitError` escaping the retry wrapper is the outcome
`failure _ true`.  Console output, spinners, the lock bracket and the
optional embeddings block (which touches neither manifest nor staging) are
not modelled. -/

/-- Result of one external processing call, after retries. -/
inductive Outcome where
  | success (summaries : Summaries)
  | failure (msg : String) (rateLimited : Bool)
  deriving DecidableEq, Repr

/-- Inputs and ambient choices of one `updateCommand` run: command-line
options, the operator's two prompt replies, the bundling threshold
(`config.bundleThreshold ?? 5`), the clock, the cost abstraction and the
processing oracles. -/
structure UpdateEnv where
  force : Bool
  yes : Bool
  quiet : Bool
  discardAnswer : Bool
  proceedAnswer : Bool
  bundleThreshold : Nat
  now : String
  costOf : Nat → Nat
  oracleFile : String → Outcome
  oracleDir : String → Outcome

/-- Observable persistence and processing events of a run, in order. -/
inductive Ev where
  | savedManifest (m : Manifest)
  | savedStaging (s : StagingFile)
  | clearedStaging
  | processedFile (path : String)
  | processedDir (path : String)
  deriving DecidableEq, Repr

/-- Staging file on disk after a trace of events, starting from the disk
content at run start. -/
def diskStagingAfter (d : Option StagingFile) : List Ev → Option StagingFile
  | [] => d
  | .savedStaging s :: rest => diskStagingAfter (some s) rest
  | .clearedStaging :: rest => diskStagingAfter none rest
  | _ :: rest => diskStagingAfter d rest

/-- JS `x || ''` on an optional hash (`node.fileHash || ''`). -/
def jsGet (o : Option String) : String := o.getD ""

/-- Mutable state of the processing loops of `updateCommand`. -/
structure LoopState where
  manifest : Manifest
  tree : RecordMap MerkleNode
  staging : StagingFile
  pendingCount : Nat
  totalTokens : Nat
  rateLimitHit : Bool
  events : List Ev
  deriving Repr

/-- Periodic bundling (update.ts "Periodic bundle every N files"): once the
pending counter reaches the threshold, fold the staging log into the
manifest, persist the manifest, and reset the staging log keeping only its
failed entries. -/
def bundleStep (env : UpdateEnv) (rootHash : String) (st : LoopState) : LoopState :=
  if st.pendingCount ≥ env.bundleThreshold then
    let manifest₀ := mergeStaging env.now st.manifest st.tree st.staging
    let manifest := { manifest₀ with stats := calculateStats env.costOf st.tree }
    let staging := { createStaging env.now rootHash with failed := st.staging.failed }
    { st with
        manifest := manifest, staging := staging, pendingCount := 0,
        events := st.events ++ [.savedManifest manifest, .savedStaging staging] }
  else st

/-- One iteration of the file processing loop of `updateCommand`. -/
def fileStep (env : UpdateEnv) (rootHash : String) (st : LoopState) (node : MerkleNode) :
    LoopState :=
  let st : LoopState := { st with events := st.events ++ [.processedFile node.path] }
  match env.oracleFile node.path with
  | .success summaries =>
    let nodeTokens := sumSummaries summaries
    let tree := updateR st.tree node.path
      (fun n => { n with summaries := some summaries, lastAnalyzed := some env.now })
    let staging := addCompletedEntry env.now st.staging node.path
      (jsGet node.fileHash) summaries nodeTokens
    bundleStep env rootHash
      { st with
          tree := tree, staging := staging,
          totalTokens := st.totalTokens + nodeTokens,
          pendingCount := st.pendingCount + 1,
          events := st.events ++ [.savedStaging staging] }
  | .failure msg rateLimited =>
    let retryCount :=
      ((st.staging.failed.find? (fun f => f.path = node.path)).map (·.retryCount)).getD 0 + 1
    let staging := addFailedEntry env.now st.staging node.path
      (jsGet node.fileHash) msg retryCount rateLimited
    let st : LoopState := { st with staging := staging, events := st.events ++ [.savedStaging staging] }
    if rateLimited then { st with rateLimitHit := true } else st

/-- The file processing loop; a set rate-limit flag models the `break`. -/
def fileLoop (env : UpdateEnv) (rootHash : String) : LoopState → List MerkleNode → LoopState
  | st, [] => st
  | st, node :: rest =>
    if st.rateLimitHit then st
    else fileLoop env rootHash (fileStep env rootHash st node) rest

/-- The engineering summary of a node, i.e. JS `node.summaries?.engineering`. -/
def summariesEng (n : MerkleNode) : Option Summary :=
  n.summaries.bind (·.engineering)

/-- The directory filter of update.ts: skip the root, require at least one
child carrying an engineering summary, and require the directory to be
undocumented or to have a children hash differing from the manifest's. -/
def dirNeedsProcessing (manifest : Manifest) (tree : RecordMap MerkleNode)
    (dir : MerkleNode) : Bool :=
  if dir.path = "." then false
  else
    let hasDocumentedChildren := (dir.children.getD []).any (fun childPath =>
      match lookupR tree childPath with
      | some child => (summariesEng child).isSome
      | none => false)
    if ¬hasDocumentedChildren then false
    else
      if ¬(summariesEng dir).isSome then true
      else
        match lookupR manifest.nodes dir.path with
        | none => true
        | some mn => decide (mn.childrenHash ≠ dir.childrenHash)

/-- One iteration of the directory processing loop.  The queue holds
paths; the node is re-read from the tree, which models the aliasing of the
mutated node objects in the source. -/
def dirStep (env : UpdateEnv) (rootHash : String) (st : LoopState) (path : String) :
    LoopState :=
  match lookupR st.tree path with
  | none => st
  | some dirNode =>
    let st : LoopState := { st with events := st.events ++ [.processedDir path] }
    match env.oracleDir path with
    | .success summaries =>
      if ¬summaries.engineering.isSome then st
      else
        let nodeTokens := sumSummaries summaries
        let tree := updateR st.tree path
          (fun n => { n with summaries := some summaries, lastAnalyzed := some env.now })
        let staging := addCompletedEntry env.now st.staging path
          (jsGet dirNode.childrenHash) summaries nodeTokens
        bundleStep env rootHash
          { st with
              tree := tree, staging := staging,
              totalTokens := st.totalTokens + nodeTokens,
              pendingCount := st.pendingCount + 1,
              events := st.events ++ [.savedStaging staging] }
    | .failure msg rateLimited =>
      let staging := addFailedEntry env.now st.staging path
        (jsGet dirNode.childrenHash) msg 1 rateLimited
      let st : LoopState := { st with staging := staging, events := st.events ++ [.savedStaging staging] }
      if rateLimited then { st with rateLimitHit := true } else st

/-- The directory processing loop. -/
def dirLoop (env : UpdateEnv) (rootHash : String) : LoopState → List String → LoopState
  | st, [] => st
  | st, path :: rest =>
    if st.rateLimitHit then st
    else dirLoop env rootHash (dirStep env rootHash st path) rest

/-- The directory queue computed before the directory loop: all directory
nodes passing `dirNeedsProcessing`, deepest first. -/
def dirQueue (st : LoopState) : List String :=
  (sortByDepth
    ((getDirectoryNodes st.tree).filter (dirNeedsProcessing st.manifest st.tree))
    true).map (·.path)

/-- The directory phase, guarded by the rate-limit flag set in the file
phase (update.ts `if (!rateLimitHit) { ... }`). -/
def dirPhase (env : UpdateEnv) (rootHash : String) (st : LoopState) : LoopState :=
  if st.rateLimitHit then st
  else dirLoop env rootHash st (dirQueue st)

/-- End of run (update.ts "FINAL BUNDLE" and the conditional staging
clear): merge and persist remaining staged completions, then clear the
staging log only when the run saw no rate-limit abort and has zero failed
entries. -/
def finishRun (env : UpdateEnv) (st : LoopState) : LoopState :=
  let st₃ :=
    if st.staging.completed.length > 0 then
      let m₀ := mergeStaging env.now st.manifest st.tree st.staging
      let m := { m₀ with stats := calculateStats env.costOf st.tree }
      { st with manifest := m, events := st.events ++ [.savedManifest m] }
    else st
  if ¬st.rateLimitHit ∧ st.staging.failed.length = 0 then
    { st₃ with events := st₃.events ++ [.clearedStaging] }
  else st₃

/-- The whole processing part of a run: file loop, guarded directory
phase, final bundle and conditional staging clear. -/
def processPhase (env : UpdateEnv) (rootHash : String) (st₀ : LoopState)
    (files : List MerkleNode) : LoopState :=
  finishRun env (dirPhase env rootHash (fileLoop env rootHash st₀ files))

/-- Outcome of the crash-recovery check at the start of a run
(update.ts "CRASH RECOVERY CHECK"). -/
structure RecoveryOut where
  manifest : Manifest
  tree : RecordMap MerkleNode
  stagingRes : Option StagingFile
  events : List Ev
  aborted : Bool
  deriving Repr

/-- Tree-side mutation of the resume branch: staged summaries are copied
onto the current tree's node objects. -/
def applyEntryTree (t : RecordMap MerkleNode) (e : StagingEntry) : RecordMap MerkleNode :=
  updateR t e.path
    (fun n => { n with summaries := some e.summaries, lastAnalyzed := some e.completedAt })

/-- Embedding of the crash-recovery check: a staging log whose root hash
differs from the current root hash is stale and is discarded (after
operator confirmation unless `--yes`); a matching one triggers a resume,
whose completed entries are merged into the manifest, persisted, and
copied onto the tree before anything else happens. -/
def recoveryPhase (env : UpdateEnv) (tree₀ : RecordMap MerkleNode) (rootHash : String)
    (manifest₀ : Manifest) (staging₀ : Option StagingFile) : RecoveryOut :=
  match staging₀ with
  | none =>
    { manifest := manifest₀, tree := tree₀, stagingRes := none, events := [], aborted := false }
  | some s =>
    if s.rootHash ≠ rootHash then
      if ¬env.yes ∧ ¬env.discardAnswer then
        { manifest := manifest₀, tree := tree₀, stagingRes := none, events := [],
          aborted := true }
      else
        { manifest := manifest₀, tree := tree₀, stagingRes := none,
          events := [.clearedStaging], aborted := false }
    else
      if s.completed.length > 0 then
        let manifest := mergeStaging env.now manifest₀ tree₀ s
        let tree := s.completed.foldl applyEntryTree tree₀
        { manifest := manifest, tree := tree, stagingRes := some s,
          events := [.savedManifest manifest], aborted := false }
      else
        { manifest := manifest₀, tree := tree₀, stagingRes := some s, events := [],
          aborted := false }

/-- Final observable state of one `updateCommand` run. -/
structure RunResult where
  events : List Ev
  manifest : Manifest
  stagingMem : Option StagingFile
  filesToProcess : List MerkleNode
  rateLimitHit : Bool
  early : Bool
  deriving Repr

/-- Change detection plus resume filtering: computes the list of files
still requiring processing this run (new and changed file nodes, minus
already-completed staged paths on a resume) together with the tree after
`detectChanges`'s mutation; `--force` bypasses change detection and takes
every current file node. -/
def computeFiles (env : UpdateEnv) (ph : RecoveryOut) :
    List MerkleNode × RecordMap MerkleNode :=
  let cdPair : ChangeDetection × RecordMap MerkleNode :=
    if env.force then (⟨getFileNodes ph.tree, [], [], []⟩, ph.tree)
    else detectChanges ph.tree (some ph.manifest)
  let files₀ : List MerkleNode :=
    (cdPair.1.new ++ cdPair.1.changed).filter (fun n => n.type = .file)
  let filesToProcess : List MerkleNode :=
    match ph.stagingRes with
    | some s => files₀.filter (fun n => !(getCompletedPaths s).contains n.path)
    | none => files₀
  (filesToProcess, cdPair.2)

/-- Embedding of the staging/lock-aware `updateCommand` from lock
acquisition to the final staging clear (the lock bracket itself and the
embeddings block are outside the modelled state).  `tree₀` and `rootHash`
stand for the result of `buildCodeMerkleTree`, `manifest₀` for the loaded
manifest (non-null after `validateInitialized`) and `staging₀` for the
staging log found on disk. -/
def runUpdate (env : UpdateEnv) (tree₀ : RecordMap MerkleNode) (rootHash : String)
    (manifest₀ : Manifest) (staging₀ : Option StagingFile) : RunResult :=
  let ph := recoveryPhase env tree₀ rootHash manifest₀ staging₀
  if ph.aborted then
    { events := ph.events, manifest := ph.manifest, stagingMem := ph.stagingRes,
      filesToProcess := [], rateLimitHit := false, early := true }
  else
    let fp := computeFiles env ph
    let filesToProcess : List MerkleNode := fp.1
    let tree₂ := fp.2
    if filesToProcess.length = 0 then
      { events := ph.events ++ [.clearedStaging], manifest := ph.manifest,
        stagingMem := ph.stagingRes, filesToProcess := [], rateLimitHit := false,
        early := true }
    else
      if ¬env.quiet ∧ ¬env.yes ∧ ¬env.proceedAnswer then
        { events := ph.events ++ [.clearedStaging], manifest := ph.manifest,
          stagingMem := ph.stagingRes, filesToProcess := filesToProcess,
          rateLimitHit := false, early := true }
      else
        let staging₁ :=
          match ph.stagingRes with
          | some s => s
          | none => createStaging env.now rootHash
        let totalTokens :=
          match ph.stagingRes with
          | some s => getTotalTokensUsed s
          | none => 0
        let st₀ : LoopState :=
          { manifest := ph.manifest, tree := tree₂, staging := staging₁,
            pendingCount := 0, totalTokens := totalTokens, rateLimitHit := false,
            events := ph.events }
        let stF := processPhase env rootHash st₀ filesToProcess
        { events := stF.events, manifest := stF.manifest,
          stagingMem := some stF.staging, filesToProcess := filesToProcess,
          rateLimitHit := stF.rateLimitHit, early := false }

/-! ### Supporting lemmas about record updates and staged merges -/

theorem lookupR_updateR_self {α : Type} (t : RecordMap α) (p : String) (f : α → α) :
    lookupR (updateR t p f) p = (lookupR t p).map f := by
  induction t with
  | nil => rfl
  | cons a ta ih =>
    obtain ⟨k, v⟩ := a
    by_cases h : k = p
    · subst h
      simp [updateR, lookupR, List.lookup_cons]
    · have hb : (p == k) = false := beq_false_of_ne (Ne.symm h)
      simp only [updateR, lookupR] at ih ⊢
      simp only [List.map_cons, List.lookup_cons, if_neg h, hb]
      exact ih

theorem lookupR_updateR_ne {α : Type} (t : RecordMap α) (p q : String) (f : α → α)
    (h : q ≠ p) : lookupR (updateR t p f) q = lookupR t q := by
  induction t with
  | nil => rfl
  | cons a ta ih =>
    obtain ⟨k, v⟩ := a
    simp only [updateR, lookupR] at ih ⊢
    by_cases hk : k = p
    · have hb : (q == k) = false := beq_false_of_ne (hk ▸ h)
      simp only [List.map_cons, List.lookup_cons, if_pos hk, hb]
      exact ih
    · simp only [List.map_cons, List.lookup_cons, if_neg hk]
      cases q == k
      · exact ih
      · rfl

theorem lookupR_foldl_applyEntry_notmem (entries : List StagingEntry)
    (t : RecordMap MerkleNode) (q : String) (h : ∀ e ∈ entries, e.path ≠ q) :
    lookupR (entries.foldl applyEntry t) q = lookupR t q := by
  induction entries generalizing t with
  | nil => rfl
  | cons a rest ih =>
    simp only [List.foldl_cons]
    rw [ih (applyEntry t a) (fun e he => h e (List.mem_cons_of_mem a he))]
    exact lookupR_updateR_ne t a.path q _
      (fun hq => h a (List.mem_cons_self a rest) (Eq.symm hq ▸ rfl))

theorem lookupR_foldl_applyEntry (entries : List StagingEntry) (e : StagingEntry) :
    e ∈ entries → (entries.map (·.path)).Nodup →
    ∀ (t : RecordMap MerkleNode) (n : MerkleNode), lookupR t e.path = some n →
    lookupR (entries.foldl applyEntry t) e.path
      = some { n with summaries := some e.summaries, lastAnalyzed := some e.completedAt } := by
  induction entries with
  | nil => intro he; cases he
  | cons a rest ih =>
    intro he hnd t n hl
    simp only [List.map_cons, List.nodup_cons] at hnd
    obtain ⟨hna, hnrest⟩ := hnd
    simp only [List.foldl_cons]
    rcases List.mem_cons.mp he with rfl | hrest
    · rw [lookupR_foldl_applyEntry_notmem rest (applyEntry t e) e.path
        (fun e' he' hq => hna (hq ▸ List.mem_map_of_mem (·.path) he'))]
      unfold applyEntry
      rw [lookupR_updateR_self, hl]
      rfl
    · refine ih hrest hnrest (applyEntry t a) n ?_
      unfold applyEntry
      rw [lookupR_updateR_ne]
      · exact hl
      · intro hq
        exact hna (hq ▸ List.mem_map_of_mem (·.path) hrest)

/-- Event-trace extension: the second trace appends to the first. -/
def ExtendsEv (a b : List Ev) : Prop := ∃ ext, b = a ++ ext

theorem ExtendsEv.rfl' (a : List Ev) : ExtendsEv a a := ⟨[], by simp⟩

theorem ExtendsEv.trans' {a b c : List Ev} (h₁ : ExtendsEv a b) (h₂ : ExtendsEv b c) :
    ExtendsEv a c := by
  obtain ⟨x, hx⟩ := h₁
  obtain ⟨y, hy⟩ := h₂
  exact ⟨x ++ y, by simp [hy, hx]⟩

theorem extendsEv_append (a x : List Ev) : ExtendsEv a (a ++ x) := ⟨x, rfl⟩

theorem extendsEv_append₂ (a x y : List Ev) : ExtendsEv a ((a ++ x) ++ y) :=
  ⟨x ++ y, by simp⟩

theorem bundleStep_events (env : UpdateEnv) (rootHash : String) (st : LoopState) :
    ExtendsEv st.events (bundleStep env rootHash st).events := by
  unfold bundleStep
  split
  · exact extendsEv_append _ _
  · exact ExtendsEv.rfl' _

theorem fileStep_events (env : UpdateEnv) (rootHash : String) (st : LoopState)
    (node : MerkleNode) : ExtendsEv st.events (fileStep env rootHash st node).events := by
  unfold fileStep
  cases env.oracleFile node.path with
  | success summaries =>
    exact ExtendsEv.trans' (extendsEv_append₂ st.events _ _) (bundleStep_events env rootHash _)
  | failure msg rateLimited =>
    cases rateLimited
    · exact extendsEv_append₂ st.events _ _
    · exact extendsEv_append₂ st.events _ _

theorem dirStep_events (env : UpdateEnv) (rootHash : String) (st : LoopState)
    (path : String) : ExtendsEv st.events (dirStep env rootHash st path).events := by
  unfold dirStep
  cases lookupR st.tree path with
  | none => exact ExtendsEv.rfl' _
  | some dirNode =>
    cases env.oracleDir path with
    | success summaries =>
      dsimp only
      cases hs : summaries.engineering
      · exact extendsEv_append st.events _
      · exact ExtendsEv.trans' (extendsEv_append₂ st.events _ _) (bundleStep_events env rootHash _)
    | failure msg rateLimited =>
      cases rateLimited
      · exact extendsEv_append₂ st.events _ _
      · exact extendsEv_append₂ st.events _ _

theorem fileLoop_events (env : UpdateEnv) (rootHash : String) (queue : List MerkleNode)
    (st : LoopState) : ExtendsEv st.events (fileLoop env rootHash st queue).events := by
  induction queue generalizing st with
  | nil => exact ExtendsEv.rfl' _
  | cons node rest ih =>
    unfold fileLoop
    split
    · exact ExtendsEv.rfl' _
    · exact ExtendsEv.trans' (fileStep_events env rootHash st node) (ih _)

theorem dirLoop_events (env : UpdateEnv) (rootHash : String) (queue : List String)
    (st : LoopState) : ExtendsEv st.events (dirLoop env rootHash st queue).events := by
  induction queue generalizing st with
  | nil => exact ExtendsEv.rfl' _
  | cons path rest ih =>
    unfold dirLoop
    split
    · exact ExtendsEv.rfl' _
    · exact ExtendsEv.trans' (dirStep_events env rootHash st path) (ih _)

theorem dirPhase_events (env : UpdateEnv) (rootHash : String) (st : LoopState) :
    ExtendsEv st.events (dirPhase env rootHash st).events := by
  unfold dirPhase
  split
  · exact ExtendsEv.rfl' _
  · exact dirLoop_events env rootHash _ st

theorem finishRun_events (env : UpdateEnv) (st : LoopState) :
    ExtendsEv st.events (finishRun env st).events := by
  unfold finishRun
  dsimp only
  split
  · split
    · exact extendsEv_append₂ st.events _ _
    · exact extendsEv_append st.events _
  · split
    · exact extendsEv_append st.events _
    · exact ExtendsEv.rfl' _

theorem processPhase_events (env : UpdateEnv) (rootHash : String) (st₀ : LoopState)
    (files : List MerkleNode) : ExtendsEv st₀.events (processPhase env rootHash st₀ files).events := by
  unfold processPhase
  exact ExtendsEv.trans' (fileLoop_events env rootHash files st₀)
    (ExtendsEv.trans' (dirPhase_events env rootHash _) (finishRun_events env _))

theorem runUpdate_events_extend (env : UpdateEnv) (tree₀ : RecordMap MerkleNode)
    (rootHash : String) (manifest₀ : Manifest) (staging₀ : Option StagingFile) :
    ExtendsEv (recoveryPhase env tree₀ rootHash manifest₀ staging₀).events
      (runUpdate env tree₀ rootHash manifest₀ staging₀).events := by
  unfold runUpdate
  dsimp only
  split
  · exact ExtendsEv.rfl' _
  · repeat' split
    all_goals
      first
      | exact extendsEv_append _ _
      | exact processPhase_events env rootHash _ _

theorem recoveryPhase_resume (env : UpdateEnv) (tree₀ : RecordMap MerkleNode)
    (rootHash : String) (manifest₀ : Manifest) (s : StagingFile)
    (hroot : s.rootHash = rootHash) :
    recoveryPhase env tree₀ rootHash manifest₀ (some s) =
      if s.completed.length > 0 then
        { manifest := mergeStaging env.now manifest₀ tree₀ s,
          tree := s.completed.foldl applyEntryTree tree₀,
          stagingRes := some s,
          events := [.savedManifest (mergeStaging env.now manifest₀ tree₀ s)],
          aborted := false }
      else
        { manifest := manifest₀, tree := tree₀, stagingRes := some s, events := [],
          aborted := false } := by
  simp [recoveryPhase, hroot]

theorem computeFiles_filtered (env : UpdateEnv) (ph : RecoveryOut) (s : StagingFile)
    (hres : ph.stagingRes = some s) :
    ∀ n ∈ (computeFiles env ph).1, ((getCompletedPaths s).contains n.path) = false := by
  unfold computeFiles
  dsimp only
  rw [hres]
  intro n hn
  have := List.of_mem_filter hn
  simpa using this

theorem runUpdate_files_filtered (env : UpdateEnv) (tree₀ : RecordMap MerkleNode)
    (rootHash : String) (manifest₀ : Manifest) (staging₀ : Option StagingFile)
    (s : StagingFile)
    (hres : (recoveryPhase env tree₀ rootHash manifest₀ staging₀).stagingRes = some s) :
    ∀ n ∈ (runUpdate env tree₀ rootHash manifest₀ staging₀).filesToProcess,
      ((getCompletedPaths s).contains n.path) = false := by
  unfold runUpdate
  dsimp only
  repeat' split
  all_goals intro n hn
  all_goals
    first
    | cases hn
    | exact computeFiles_filtered env _ s hres n hn

theorem recoveryPhase_resume_stagingRes (env : UpdateEnv) (tree₀ : RecordMap MerkleNode)
    (rootHash : String) (manifest₀ : Manifest) (s : StagingFile)
    (hroot : s.rootHash = rootHash) :
    (recoveryPhase env tree₀ rootHash manifest₀ (some s)).stagingRes = some s := by
  rw [recoveryPhase_resume env tree₀ rootHash manifest₀ s hroot]
  split <;> rfl

/-- C5: when a staging log exists and its recorded root fingerprint equals
the freshly computed root fingerprint, the run is a resume: (1) when the
log has completed entries, the very first observable effect of the run is
persisting the cache store merged from those entries, before any file or
directory is processed; (2) the merge writes every completed entry's
summaries and completion timestamp onto the corresponding tree node of the
persisted manifest; (3) every path recorded as completed in the staging
log is excluded from the set of files still requiring processing in this
run. -/
theorem runUpdate_resume (env : UpdateEnv) (tree₀ : RecordMap MerkleNode)
    (rootHash : String) (manifest₀ : Manifest) (s : StagingFile)
    (hroot : s.rootHash = rootHash) :
    (s.completed ≠ [] →
      ∃ rest, (runUpdate env tree₀ rootHash manifest₀ (some s)).events
        = .savedManifest (mergeStaging env.now manifest₀ tree₀ s) :: rest)
  ∧ ((getCompletedPaths s).Nodup →
      ∀ e ∈ s.completed, ∀ n, lookupR tree₀ e.path = some n →
        lookupR (mergeStaging env.now manifest₀ tree₀ s).nodes e.path
          = some { n with summaries := some e.summaries, lastAnalyzed := some e.completedAt })
  ∧ (∀ e ∈ s.completed,
      e.path ∉ (runUpdate env tree₀ rootHash manifest₀ (some s)).filesToProcess.map (·.path)) := by
  refine ⟨?_, ?_, ?_⟩
  · intro hne
    have hlen : s.completed.length > 0 := List.length_pos.mpr hne
    have hph : recoveryPhase env tree₀ rootHash manifest₀ (some s) =
        { manifest := mergeStaging env.now manifest₀ tree₀ s,
          tree := s.completed.foldl applyEntryTree tree₀,
          stagingRes := some s,
          events := [.savedManifest (mergeStaging env.now manifest₀ tree₀ s)],
          aborted := false } := by
      rw [recoveryPhase_resume env tree₀ rootHash manifest₀ s hroot, if_pos hlen]
    have hx := runUpdate_events_extend env tree₀ rootHash manifest₀ (some s)
    rw [hph] at hx
    obtain ⟨ext, hext⟩ := hx
    exact ⟨ext, by rw [hext]; rfl⟩
  · intro hnd e he n hl
    exact lookupR_foldl_applyEntry s.completed e he hnd tree₀ n hl
  · intro e he hmem
    obtain ⟨n, hn, hpath⟩ := List.mem_map.mp hmem
    have hfalse := runUpdate_files_filtered env tree₀ rootHash manifest₀ (some s) s
      (recoveryPhase_resume_stagingRes env tree₀ rootHash manifest₀ s hroot) n hn
    rw [hpath] at hfalse
    have htrue : ((getCompletedPaths s).contains e.path) = true := by
      have : e.path ∈ getCompletedPaths s := List.mem_map_of_mem (·.path) he
      simpa using this
    rw [htrue] at hfalse
    cases hfalse

/-! ### Concrete fixtures for witnesses and counterexamples -/

/-- Concrete environment: prompts auto-accepted, every processing call
fails with a non-rate-limit error (never reached in the runs below). -/
def envW : UpdateEnv :=
  { force := false, yes := true, quiet := true, discardAnswer := true,
    proceedAnswer := true, bundleThreshold := 5, now := "t1",
    costOf := fun n => n,
    oracleFile := fun _ => .failure "boom" false,
    oracleDir := fun _ => .failure "boom" false }

/-- Concrete summary artifact. -/
def summaryW : Summary :=
  { content := "doc", hash := "sh", tokens := 5, model := "m", generatedAt := "t0" }

/-- Concrete artifact bundle. -/
def summariesW : Summaries := { engineering := some summaryW }

/-- Concrete file node. -/
def fileNodeW : MerkleNode := { path := "a.ts", type := .file, fileHash := some "h1" }

/-- Concrete root directory node. -/
def rootNodeW : MerkleNode :=
  { path := ".", type := .directory, childrenHash := some "hr", children := some ["a.ts"] }

/-- Concrete current tree: one file under the root. -/
def treeW : RecordMap MerkleNode := [("a.ts", fileNodeW), (".", rootNodeW)]

/-- Concrete manifest whose nodes carry the same fingerprints as `treeW`. -/
def manifestW : Manifest :=
  { version := "1.0.0", generatedAt := "t0", codeRootHash := "hr", nodes := treeW,
    stats := { totalFiles := 1, totalTokensUsed := 0, totalCost := 0 } }

/-- Concrete staging log from an interrupted run over the same tree: one
completed entry, no failures. -/
def stagingResumeW : StagingFile :=
  { version := "1.0.0", startedAt := "t0", rootHash := "hr",
    completed := [{ path := "a.ts", fileHash := "h1", summaries := summariesW,
                    completedAt := "t0", tokensUsed := 5 }],
    failed := [] }

/-- Witness for C5: on the concrete resume, the run's first event persists
the manifest merged from the staged completions. -/
theorem runUpdate_resume_witness :
    ∃ rest, (runUpdate envW treeW "hr" manifestW (some stagingResumeW)).events
      = .savedManifest (mergeStaging envW.now manifestW treeW stagingResumeW) :: rest :=
  (runUpdate_resume envW treeW "hr" manifestW stagingResumeW rfl).1 (by decide)

/-! ### Tracking the on-disk staging file through a run (for C6) -/

theorem diskStagingAfter_append (d : Option StagingFile) (a b : List Ev) :
    diskStagingAfter d (a ++ b) = diskStagingAfter (diskStagingAfter d a) b := by
  induction a generalizing d with
  | nil => rfl
  | cons e rest ih =>
    cases e <;> simp [diskStagingAfter, ih]

theorem bundleStep_disk (env : UpdateEnv) (rootHash : String) (st : LoopState)
    (d : Option StagingFile) (h : diskStagingAfter d st.events = some st.staging) :
    diskStagingAfter d (bundleStep env rootHash st).events
      = some (bundleStep env rootHash st).staging := by
  unfold bundleStep
  split
  · dsimp only
    rw [diskStagingAfter_append]
    rfl
  · exact h

theorem fileStep_disk (env : UpdateEnv) (rootHash : String) (st : LoopState)
    (node : MerkleNode) (d : Option StagingFile) :
    diskStagingAfter d (fileStep env rootHash st node).events
      = some (fileStep env rootHash st node).staging := by
  unfold fileStep
  cases env.oracleFile node.path with
  | success summaries =>
    refine bundleStep_disk env rootHash _ d ?_
    dsimp only
    rw [diskStagingAfter_append]
    rfl
  | failure msg rateLimited =>
    dsimp only
    split <;> (dsimp only; rw [diskStagingAfter_append]; rfl)

theorem dirStep_disk (env : UpdateEnv) (rootHash : String) (st : LoopState)
    (path : String) (d : Option StagingFile)
    (h : diskStagingAfter d st.events = some st.staging) :
    diskStagingAfter d (dirStep env rootHash st path).events
      = some (dirStep env rootHash st path).staging := by
  unfold dirStep
  cases lookupR st.tree path with
  | none => exact h
  | some dirNode =>
    cases env.oracleDir path with
    | success summaries =>
      dsimp only
      cases hs : summaries.engineering with
      | none =>
        rw [if_pos (by simp)]
        dsimp only
        rw [diskStagingAfter_append]
        simpa [diskStagingAfter] using h
      | some sm =>
        rw [if_neg (by simp)]
        refine bundleStep_disk env rootHash _ d ?_
        dsimp only
        rw [diskStagingAfter_append]
        rfl
    | failure msg rateLimited =>
      dsimp only
      split <;> (dsimp only; rw [diskStagingAfter_append]; rfl)

theorem fileLoop_disk (env : UpdateEnv) (rootHash : String) (q : List MerkleNode)
    (st : LoopState) (d : Option StagingFile)
    (h : diskStagingAfter d st.events = some st.staging) :
    diskStagingAfter d (fileLoop env rootHash st q).events
      = some (fileLoop env rootHash st q).staging := by
  induction q generalizing st with
  | nil => exact h
  | cons n rest ih =>
    unfold fileLoop
    split
    · exact h
    · exact ih _ (fileStep_disk env rootHash st n d)

theorem fileLoop_disk_nonempty (env : UpdateEnv) (rootHash : String) (n : MerkleNode)
    (rest : List MerkleNode) (st : LoopState) (d : Option StagingFile)
    (hrl : st.rateLimitHit = false) :
    diskStagingAfter d (fileLoop env rootHash st (n :: rest)).events
      = some (fileLoop env rootHash st (n :: rest)).staging := by
  unfold fileLoop
  rw [hrl]
  simp only [Bool.false_eq_true, if_false]
  exact fileLoop_disk env rootHash rest _ d (fileStep_disk env rootHash st n d)

theorem dirLoop_disk (env : UpdateEnv) (rootHash : String) (q : List String)
    (st : LoopState) (d : Option StagingFile)
    (h : diskStagingAfter d st.events = some st.staging) :
    diskStagingAfter d (dirLoop env rootHash st q).events
      = some (dirLoop env rootHash st q).staging := by
  induction q generalizing st with
  | nil => exact h
  | cons p rest ih =>
    unfold dirLoop
    split
    · exact h
    · exact ih _ (dirStep_disk env rootHash st p d h)

theorem dirPhase_disk (env : UpdateEnv) (rootHash : String) (st : LoopState)
    (d : Option StagingFile) (h : diskStagingAfter d st.events = some st.staging) :
    diskStagingAfter d (dirPhase env rootHash st).events
      = some (dirPhase env rootHash st).staging := by
  unfold dirPhase
  split
  · exact h
  · exact dirLoop_disk env rootHash _ st d h

theorem finishRun_staging (env : UpdateEnv) (st : LoopState) :
    (finishRun env st).staging = st.staging
  ∧ (finishRun env st).rateLimitHit = st.rateLimitHit := by
  unfold finishRun
  dsimp only
  split <;> split <;> exact ⟨rfl, rfl⟩

theorem finishRun_disk (env : UpdateEnv) (st : LoopState) (d : Option StagingFile)
    (h : diskStagingAfter d st.events = some st.staging) :
    diskStagingAfter d (finishRun env st).events
      = if ¬st.rateLimitHit = true ∧ st.staging.failed.length = 0 then none
        else some st.staging := by
  unfold finishRun
  dsimp only
  split
  · split
    · dsimp only
      rw [diskStagingAfter_append, diskStagingAfter_append]
      rfl
    · dsimp only
      rw [diskStagingAfter_append]
      rfl
  · split
    · dsimp only
      rw [diskStagingAfter_append, h]
      rfl
    · exact h

theorem finishRun_clear_iff (env : UpdateEnv) (st : LoopState) (d : Option StagingFile)
    (h : diskStagingAfter d st.events = some st.staging) :
    diskStagingAfter d (finishRun env st).events = none
      ↔ ((finishRun env st).rateLimitHit = false
          ∧ ∃ sf, some (finishRun env st).staging = some sf ∧ sf.failed = []) := by
  obtain ⟨hs, hr⟩ := finishRun_staging env st
  rw [finishRun_disk env st d h, hs, hr]
  by_cases hc : (¬st.rateLimitHit = true ∧ st.staging.failed.length = 0)
  · rw [if_pos hc]
    constructor
    · intro _
      exact ⟨by simpa using hc.1, st.staging, rfl, List.length_eq_zero.mp hc.2⟩
    · intro _
      rfl
  · rw [if_neg hc]
    constructor
    · intro hx
      cases hx
    · rintro ⟨hrl, sf, hsf, hfail⟩
      exfalso
      apply hc
      refine ⟨by simp [hrl], ?_⟩
      rw [Option.some_inj] at hsf
      rw [hsf, hfail]
      rfl

/-- Concrete staging log from an interrupted run over the same tree: no
completed entries, one outstanding failed entry. -/
def stagingFailedW : StagingFile :=
  { version := "1.0.0", startedAt := "t0", rootHash := "hr", completed := [],
    failed := [{ path := "a.ts", fileHash := "h1", error := "boom", failedAt := "t0",
                 retryCount := 1, isRateLimited := false }] }

/-- Counterexample to C6: a resumed run over an unchanged tree finds no
files left to process and clears the staging log on its early return even
though the log still holds an outstanding failed entry, so the failure is
no longer visible on the next invocation. -/
theorem runUpdate_clears_despite_failures :
    (runUpdate envW treeW "hr" manifestW (some stagingFailedW)).events = [.clearedStaging]
  ∧ stagingFailedW.failed ≠ []
  ∧ diskStagingAfter (some stagingFailedW)
      (runUpdate envW treeW "hr" manifestW (some stagingFailedW)).events = none := by
  refine ⟨by decide, by decide, by decide⟩

/-- C6 (amended): in any run that reaches the processing phase, the
staging log file present on disk at the end of the run has been deleted
exactly when the run saw no rate-limit abort and ended with zero failed
entries; however the two early returns (nothing left to process, operator
declined) clear the staging log unconditionally, even when outstanding
failed entries exist (see `runUpdate_clears_despite_failures`). -/
theorem runUpdate_clear_iff (env : UpdateEnv) (tree₀ : RecordMap MerkleNode)
    (rootHash : String) (manifest₀ : Manifest) (staging₀ : Option StagingFile)
    (hEarly : (runUpdate env tree₀ rootHash manifest₀ staging₀).early = false) :
    diskStagingAfter staging₀ (runUpdate env tree₀ rootHash manifest₀ staging₀).events = none
      ↔ ((runUpdate env tree₀ rootHash manifest₀ staging₀).rateLimitHit = false
          ∧ ∃ sf, (runUpdate env tree₀ rootHash manifest₀ staging₀).stagingMem = some sf
              ∧ sf.failed = []) := by
  revert hEarly
  unfold runUpdate
  dsimp only
  split
  · intro hEarly
    simp at hEarly
  · split
    · intro hEarly
      simp at hEarly
    · next hlen =>
      split
      · intro hEarly
        simp at hEarly
      · intro _
        unfold processPhase
        refine finishRun_clear_iff env _ staging₀ ?_
        refine dirPhase_disk env rootHash _ staging₀ ?_
        have hne : (computeFiles env (recoveryPhase env tree₀ rootHash manifest₀ staging₀)).1
            ≠ [] := by
          intro hnil
          exact hlen (by rw [hnil]; rfl)
        obtain ⟨n, rest, hq⟩ := List.exists_cons_of_ne_nil hne
        rw [hq]
        exact fileLoop_disk_nonempty env rootHash n rest _ staging₀ rfl

/-- Concrete manifest recording an older fingerprint for the file, so the
file is classified changed and the run reaches the processing phase. -/
def manifestChangedW : Manifest :=
  { manifestW with
      nodes := [("a.ts", { fileNodeW with fileHash := some "h0" }), (".", rootNodeW)] }

/-- Witness for the amended C6 theorem: a run that reaches processing and
ends with a failed file neither deletes the staging file nor satisfies the
zero-failure condition. -/
theorem runUpdate_clear_iff_witness :
    diskStagingAfter none (runUpdate envW treeW "hr" manifestChangedW none).events = none
      ↔ ((runUpdate envW treeW "hr" manifestChangedW none).rateLimitHit = false
          ∧ ∃ sf, (runUpdate envW treeW "hr" manifestChangedW none).stagingMem = some sf
              ∧ sf.failed = []) :=
  runUpdate_clear_iff envW treeW "hr" manifestChangedW none (by decide)

/-! ### Rate-limit abort (for C7) -/

theorem fileLoop_cons (env : UpdateEnv) (rootHash : String) (st : LoopState)
    (node : MerkleNode) (rest : List MerkleNode) :
    fileLoop env rootHash st (node :: rest)
      = if st.rateLimitHit then st
        else fileLoop env rootHash (fileStep env rootHash st node) rest := rfl

theorem fileLoop_rl (env : UpdateEnv) (rootHash : String) (q : List MerkleNode)
    (st : LoopState) (h : st.rateLimitHit = true) : fileLoop env rootHash st q = st := by
  cases q with
  | nil => rfl
  | cons n rest =>
    rw [fileLoop_cons, if_pos h]

theorem fileLoop_append (env : UpdateEnv) (rootHash : String) (xs ys : List MerkleNode)
    (st : LoopState) :
    fileLoop env rootHash st (xs ++ ys)
      = fileLoop env rootHash (fileLoop env rootHash st xs) ys := by
  induction xs generalizing st with
  | nil => rfl
  | cons x xs ih =>
    rw [List.cons_append, fileLoop_cons, fileLoop_cons]
    by_cases h : st.rateLimitHit
    · rw [if_pos h, if_pos h, fileLoop_rl env rootHash ys st h]
    · rw [if_neg h, if_neg h, ih]

theorem dirLoop_cons (env : UpdateEnv) (rootHash : String) (st : LoopState)
    (p : String) (rest : List String) :
    dirLoop env rootHash st (p :: rest)
      = if st.rateLimitHit then st
        else dirLoop env rootHash (dirStep env rootHash st p) rest := rfl

theorem dirLoop_rl (env : UpdateEnv) (rootHash : String) (q : List String)
    (st : LoopState) (h : st.rateLimitHit = true) : dirLoop env rootHash st q = st := by
  cases q with
  | nil => rfl
  | cons p rest =>
    rw [dirLoop_cons, if_pos h]

theorem dirLoop_append (env : UpdateEnv) (rootHash : String) (xs ys : List String)
    (st : LoopState) :
    dirLoop env rootHash st (xs ++ ys)
      = dirLoop env rootHash (dirLoop env rootHash st xs) ys := by
  induction xs generalizing st with
  | nil => rfl
  | cons x xs ih =>
    rw [List.cons_append, dirLoop_cons, dirLoop_cons]
    by_cases h : st.rateLimitHit
    · rw [if_pos h, if_pos h, dirLoop_rl env rootHash ys st h]
    · rw [if_neg h, if_neg h, ih]

theorem fileStep_rateLimited (env : UpdateEnv) (rootHash : String) (st : LoopState)
    (node : MerkleNode) (msg : String)
    (ho : env.oracleFile node.path = .failure msg true) :
    fileStep env rootHash st node =
      { st with
          staging := addFailedEntry env.now st.staging node.path (jsGet node.fileHash) msg
            (((st.staging.failed.find? (fun f => f.path = node.path)).map
                (·.retryCount)).getD 0 + 1) true,
          rateLimitHit := true,
          events := (st.events ++ [.processedFile node.path])
            ++ [.savedStaging (addFailedEntry env.now st.staging node.path
                  (jsGet node.fileHash) msg
                  (((st.staging.failed.find? (fun f => f.path = node.path)).map
                      (·.retryCount)).getD 0 + 1) true)] } := by
  unfold fileStep
  rw [ho]
  rfl

theorem dirStep_rateLimited (env : UpdateEnv) (rootHash : String) (st : LoopState)
    (p : String) (dn : MerkleNode) (msg : String)
    (hl : lookupR st.tree p = some dn)
    (ho : env.oracleDir p = .failure msg true) :
    dirStep env rootHash st p =
      { st with
          staging := addFailedEntry env.now st.staging p (jsGet dn.childrenHash) msg 1 true,
          rateLimitHit := true,
          events := (st.events ++ [.processedDir p])
            ++ [.savedStaging
                  (addFailedEntry env.now st.staging p (jsGet dn.childrenHash) msg 1 true)] } := by
  unfold dirStep
  rw [hl, ho]
  rfl

theorem setFirstFailed_mem (path : String) (entry : FailedEntry)
    (l l' : List FailedEntry) (h : setFirstFailed path entry l = some l')
    (f : FailedEntry) (hf : f ∈ l) (hne : f.path ≠ path) : f ∈ l' := by
  induction l generalizing l' with
  | nil => cases h
  | cons f0 rest ih =>
    unfold setFirstFailed at h
    by_cases h0 : f0.path = path
    · rw [if_pos h0] at h
      rw [Option.some_inj] at h
      subst h
      rcases List.mem_cons.mp hf with rfl | hrest
      · exact absurd h0 hne
      · exact List.mem_cons_of_mem _ hrest
    · rw [if_neg h0] at h
      cases hrec : setFirstFailed path entry rest with
      | none => rw [hrec] at h; cases h
      | some l'' =>
        rw [hrec] at h
        rw [Option.map_some', Option.some_inj] at h
        subst h
        rcases List.mem_cons.mp hf with rfl | hrest
        · exact List.mem_cons_self _ _
        · exact List.mem_cons_of_mem _ (ih l'' hrec hrest)

/-- Appending a failure to the staging log preserves every completed entry
and every failed entry for a different path. -/
theorem addFailedEntry_preserves (now : String) (staging : StagingFile)
    (path fileHash msg : String) (retryCount : Nat) (rl : Bool) :
    (addFailedEntry now staging path fileHash msg retryCount rl).completed
      = staging.completed
  ∧ ∀ f ∈ staging.failed, f.path ≠ path →
      f ∈ (addFailedEntry now staging path fileHash msg retryCount rl).failed := by
  unfold addFailedEntry
  dsimp only
  cases hs : setFirstFailed path ⟨path, fileHash, msg, now, retryCount, rl⟩ staging.failed with
  | none =>
    exact ⟨rfl, fun f hf _ => List.mem_append_left _ hf⟩
  | some newFailed =>
    exact ⟨rfl, fun f hf hne => setFirstFailed_mem path _ _ newFailed hs f hf hne⟩

theorem dirPhase_rl (env : UpdateEnv) (rootHash : String) (st : LoopState)
    (h : st.rateLimitHit = true) : dirPhase env rootHash st = st := by
  unfold dirPhase
  rw [if_pos h]

/-- C7: once a path fails with a rate-limit error during a processing
loop of an update run, the failure is appended to the staging log and the
log saved, the loop stops there (no later queued path of that loop is
processed), a rate-limited file phase skips the directory phase entirely,
and the appended failure preserves every previously staged completed entry
and every failed entry for a different path. -/
theorem rateLimit_abort (env : UpdateEnv) (rootHash : String) :
    (∀ (st : LoopState) (xs ys : List MerkleNode) (node : MerkleNode) (msg : String),
      (fileLoop env rootHash st xs).rateLimitHit = false →
      env.oracleFile node.path = .failure msg true →
      fileLoop env rootHash st (xs ++ node :: ys)
        = fileStep env rootHash (fileLoop env rootHash st xs) node
      ∧ fileStep env rootHash (fileLoop env rootHash st xs) node
        = { fileLoop env rootHash st xs with
            staging := addFailedEntry env.now (fileLoop env rootHash st xs).staging
              node.path (jsGet node.fileHash) msg
              ((((fileLoop env rootHash st xs).staging.failed.find?
                  (fun f => f.path = node.path)).map (·.retryCount)).getD 0 + 1) true,
            rateLimitHit := true,
            events := ((fileLoop env rootHash st xs).events ++ [.processedFile node.path])
              ++ [.savedStaging (addFailedEntry env.now
                    (fileLoop env rootHash st xs).staging node.path (jsGet node.fileHash) msg
                    ((((fileLoop env rootHash st xs).staging.failed.find?
                        (fun f => f.path = node.path)).map (·.retryCount)).getD 0 + 1) true)] })
  ∧ (∀ (st : LoopState) (xs ys : List String) (p : String) (dn : MerkleNode) (msg : String),
      (dirLoop env rootHash st xs).rateLimitHit = false →
      lookupR (dirLoop env rootHash st xs).tree p = some dn →
      env.oracleDir p = .failure msg true →
      dirLoop env rootHash st (xs ++ p :: ys)
        = dirStep env rootHash (dirLoop env rootHash st xs) p
      ∧ dirStep env rootHash (dirLoop env rootHash st xs) p
        = { dirLoop env rootHash st xs with
            staging := addFailedEntry env.now (dirLoop env rootHash st xs).staging
              p (jsGet dn.childrenHash) msg 1 true,
            rateLimitHit := true,
            events := ((dirLoop env rootHash st xs).events ++ [.processedDir p])
              ++ [.savedStaging (addFailedEntry env.now
                    (dirLoop env rootHash st xs).staging p (jsGet dn.childrenHash) msg 1 true)] })
  ∧ (∀ st : LoopState, st.rateLimitHit = true → dirPhase env rootHash st = st)
  ∧ (∀ (now : String) (staging : StagingFile) (path fh msg : String) (rc : Nat) (rl : Bool),
      (addFailedEntry now staging path fh msg rc rl).completed = staging.completed
      ∧ ∀ f ∈ staging.failed, f.path ≠ path →
          f ∈ (addFailedEntry now staging path fh msg rc rl).failed) := by
  refine ⟨?_, ?_, dirPhase_rl env rootHash,
    fun now staging path fh msg rc rl => addFailedEntry_preserves now staging path fh msg rc rl⟩
  · intro st xs ys node msg hrl ho
    have hstep := fileStep_rateLimited env rootHash (fileLoop env rootHash st xs) node msg ho
    refine ⟨?_, hstep⟩
    rw [fileLoop_append, fileLoop_cons, if_neg (by simp [hrl]), hstep]
    exact fileLoop_rl env rootHash ys _ rfl
  · intro st xs ys p dn msg hrl hl ho
    have hstep := dirStep_rateLimited env rootHash (dirLoop env rootHash st xs) p dn msg hl ho
    refine ⟨?_, hstep⟩
    rw [dirLoop_append, dirLoop_cons, if_neg (by simp [hrl]), hstep]
    exact dirLoop_rl env rootHash ys _ rfl

/-- Concrete environment whose processing calls always fail rate-limited. -/
def envRL : UpdateEnv :=
  { envW with
      oracleFile := fun _ => .failure "rate" true,
      oracleDir := fun _ => .failure "rate" true }

/-- Concrete loop state at the start of a processing phase. -/
def stW : LoopState :=
  { manifest := manifestW, tree := treeW, staging := createStaging "t1" "hr",
    pendingCount := 0, totalTokens := 0, rateLimitHit := false, events := [] }

/-- Witness for C7: with a rate-limited first file, the loop stops after
that single step and never reaches the rest of the queue. -/
theorem rateLimit_abort_witness :
    fileLoop envRL "hr" stW ([] ++ fileNodeW :: [rootNodeW])
      = fileStep envRL "hr" (fileLoop envRL "hr" stW []) fileNodeW :=
  ((rateLimit_abort envRL "hr").1 stW [] [rootNodeW] fileNodeW "rate" (by decide) rfl).1

/-! ### merkle-tree.ts `buildCodeMerkleTree` (for C2)

The file system is a finite tree of named files (raw byte lists) and
named directories.  Relative paths are modelled as segment lists: `[]`
stands for the root's relative path `"."`, and descending into a child
appends its name, exactly as `path.relative`/`path.join` compute them —
on slash-free names the rendering to the source's path strings is
injective.  The SHA-256 digests of hash.ts are abstracted as the two
function parameters `fileDigest` (over raw bytes) and `digest` (over the
concatenated sorted children hashes, via `computeDirectoryHash`), and the
exclusion matcher `shouldExclude` is abstracted as the predicate `excl`
over relative paths, evaluated before recursing exactly as in the
source. -/

/-- A file-system entry: leaf file with raw bytes, or directory. -/
inductive FSEntry where
  | file (name : String) (content : List Nat)
  | dir (name : String) (entries : List FSEntry)
  deriving Repr

/-- The entry's own name. -/
def FSEntry.name : FSEntry → String
  | .file n _ => n
  | .dir n _ => n

/-- Relative paths as segment lists; `[]` is the root (the source's "."). -/
abbrev SegPath : Type := List String

/-- Ambient parameters of `buildCodeMerkleTree`: the two digests, the
exclusion predicate, and the clock. -/
structure BuildCtx where
  fileDigest : List Nat → String
  digest : String → String
  excl : SegPath → Bool
  now : String

/-- Rendering a segment path to the source's string form. -/
def joinPath (rp : SegPath) : String :=
  if rp = [] then "." else String.intercalate "/" rp

/-- A node of the built tree (`MerkleNode` with segment paths; these nodes
never carry summaries). -/
structure MNode where
  path : SegPath
  type : NodeType
  fileHash : Option String := none
  childrenHash : Option String := none
  children : Option (List SegPath) := none
  lastAnalyzed : Option String := none
  deriving DecidableEq, Repr

/-- The aggregation expression `child.fileHash || child.childrenHash || ''`
(merkle-tree.ts line 129). -/
def fpM (n : MNode) : String :=
  jsOrS3 n.fileHash n.childrenHash

/-- The model of `childPaths.sort()`: sort child paths by their rendered
string form. -/
def sortPaths (l : List SegPath) : List SegPath :=
  List.insertionSort (fun a b => joinPath a ≤ joinPath b) l

mutual

/-- Embedding of the recursive `traverse` of `buildCodeMerkleTree`:
returns the node built for this entry together with the `nodes`-map
entries added beneath it (in insertion order), or `none` when the entry is
excluded. -/
def traverseAt (ctx : BuildCtx) (rp : SegPath) :
    FSEntry → Option (MNode × List (SegPath × MNode))
  | .file _ c =>
    if rp ≠ [] ∧ ctx.excl rp = true then none
    else
      let node : MNode :=
        { path := rp, type := .file, fileHash := some (ctx.fileDigest c),
          lastAnalyzed := some ctx.now }
      some (node, [(rp, node)])
  | .dir _ es =>
    if rp ≠ [] ∧ ctx.excl rp = true then none
    else
      let res := traverseChildren ctx rp es
      let childrenHashes := res.1.map fpM
      let chash := computeDirectoryHash ctx.digest childrenHashes
      let node : MNode :=
        { path := rp, type := .directory, childrenHash := some chash,
          children := some (sortPaths (res.1.map (·.path))),
          lastAnalyzed := some ctx.now }
      some (node, res.2 ++ [(rp, node)])

/-- The `for (const entry of entries)` loop over a directory's children:
collects the included child nodes (for hashing) and the accumulated
`nodes`-map entries. -/
def traverseChildren (ctx : BuildCtx) (rp : SegPath) :
    List FSEntry → List MNode × List (SegPath × MNode)
  | [] => ([], [])
  | e :: es =>
    let r := traverseAt ctx (rp ++ [e.name]) e
    let rest := traverseChildren ctx rp es
    match r with
    | none => rest
    | some (n, m) => (n :: rest.1, m ++ rest.2)

end

/-- Embedding of `buildCodeMerkleTree`: traverse from the root (relative
path `[]`, never excluded) and return the nodes map and
`rootNode?.childrenHash || ''`. -/
def buildCodeMerkleTree (ctx : BuildCtx) (root : FSEntry) :
    List (SegPath × MNode) × String :=
  match traverseAt ctx [] root with
  | none => ([], "")
  | some (rn, nodes) => (nodes, jsGet rn.childrenHash)

mutual

/-- All raw file contents occurring in a tree (the inputs ever passed to
the file digest). -/
def fileContents : FSEntry → List (List Nat)
  | .file _ c => [c]
  | .dir _ es => fileContentsList es

/-- The file contents of a list of entries. -/
def fileContentsList : List FSEntry → List (List Nat)
  | [] => []
  | e :: es => fileContents e ++ fileContentsList es

end

mutual

/-- All children-hash lists passed to `computeDirectoryHash` during the
traversal of an entry at a given relative path. -/
def dirInputs (ctx : BuildCtx) (rp : SegPath) : FSEntry → List (List String)
  | .file _ _ => []
  | .dir _ es =>
    if rp ≠ [] ∧ ctx.excl rp = true then []
    else ((traverseChildren ctx rp es).1.map fpM) :: dirInputsList ctx rp es

/-- The directory-hash inputs of a list of entries below a parent path. -/
def dirInputsList (ctx : BuildCtx) (rp : SegPath) : List FSEntry → List (List String)
  | [] => []
  | e :: es => dirInputs ctx (rp ++ [e.name]) e ++ dirInputsList ctx rp es

end

mutual

/-- Sibling names are distinct throughout the tree (true of a real file
system, where a directory cannot hold two entries of the same name). -/
def wellNamed : FSEntry → Bool
  | .file _ _ => true
  | .dir _ es => decide ((es.map FSEntry.name).Nodup) && wellNamedList es

/-- Well-namedness of a list of entries. -/
def wellNamedList : List FSEntry → Bool
  | [] => true
  | e :: es => wellNamed e && wellNamedList es

end

/-- The relative paths of the modified leaf and all of its ancestors from
(and including) `rp`, following the recorded chain of names. -/
def spine (rp : SegPath) : List String → List SegPath
  | [] => [rp]
  | n :: ns => rp :: spine (rp ++ [n]) ns

/-- Every path on the spine is the root or not excluded, so the traversal
actually descends to the modified leaf. -/
def spineOk (excl : SegPath → Bool) (rp : SegPath) (names : List String) : Bool :=
  (spine rp names).all (fun q => decide (q = []) || !excl q)

/-- Two trees that are identical except for the raw bytes of one leaf
file; the name list records the chain of entry names from the given node
down to that leaf. -/
inductive DiffOneLeaf : FSEntry → FSEntry → List String → Prop
  | leaf {n : String} {c c' : List Nat} :
      c ≠ c' → DiffOneLeaf (.file n c) (.file n c') []
  | node {n : String} {pre post : List FSEntry} {e e' : FSEntry} {names : List String} :
      DiffOneLeaf e e' names →
      DiffOneLeaf (.dir n (pre ++ e :: post)) (.dir n (pre ++ e' :: post))
        (e.name :: names)

/-- The two sides of a one-leaf difference carry the same name. -/
theorem DiffOneLeaf.name_eq {e e' : FSEntry} {names : List String}
    (h : DiffOneLeaf e e' names) : e.name = e'.name := by
  cases h <;> rfl

theorem jsOrS3_some_none (s : String) : jsOrS3 (some s) none = s := by
  unfold jsOrS3 jsOrS
  by_cases h : s = "" <;> simp [h]

theorem jsOrS3_none_some (s : String) : jsOrS3 none (some s) = s := by
  unfold jsOrS3 jsOrS
  by_cases h : s = "" <;> simp [h]

theorem guard_false_of_ok {excl : SegPath → Bool} {rp : SegPath}
    (h : (decide (rp = []) || !excl rp) = true) : ¬(rp ≠ [] ∧ excl rp = true) := by
  rintro ⟨hne, hex⟩
  simp [hne, hex] at h

theorem spine_mem (ns : List String) : ∀ (rp q : SegPath), q ∈ spine rp ns →
    ∃ t, q = rp ++ t := by
  induction ns with
  | nil =>
    intro rp q hq
    simp [spine] at hq
    exact ⟨[], by simp [hq]⟩
  | cons n ns ih =>
    intro rp q hq
    simp only [spine, List.mem_cons] at hq
    rcases hq with rfl | hq
    · exact ⟨[], by simp⟩
    · obtain ⟨t, ht⟩ := ih (rp ++ [n]) q hq
      exact ⟨[n] ++ t, by simp [ht]⟩

theorem spineOk_cons (excl : SegPath → Bool) (rp : SegPath) (n : String) (ns : List String) :
    spineOk excl rp (n :: ns)
      = ((decide (rp = []) || !excl rp) && spineOk excl (rp ++ [n]) ns) := by
  simp [spineOk, spine, List.all_cons]

theorem spineOk_head {excl : SegPath → Bool} {rp : SegPath} {ns : List String}
    (h : spineOk excl rp ns = true) : (decide (rp = []) || !excl rp) = true := by
  cases ns with
  | nil => simpa [spineOk, spine] using h
  | cons n ns =>
    rw [spineOk_cons, Bool.and_eq_true] at h
    exact h.1

theorem wellNamedList_mem : ∀ (l : List FSEntry), wellNamedList l = true →
    ∀ e ∈ l, wellNamed e = true := by
  intro l
  induction l with
  | nil =>
    intro _ e he
    cases he
  | cons f fs ih =>
    intro h e he
    unfold wellNamedList at h
    rw [Bool.and_eq_true] at h
    rcases List.mem_cons.mp he with rfl | he
    · exact h.1
    · exact ih h.2 e he

theorem wellNamed_dir {n : String} {es : List FSEntry} (h : wellNamed (.dir n es) = true) :
    (es.map FSEntry.name).Nodup ∧ wellNamedList es = true := by
  unfold wellNamed at h
  rw [Bool.and_eq_true] at h
  exact ⟨of_decide_eq_true h.1, h.2⟩

theorem fileContents_mem_list (x : FSEntry) : ∀ (l : List FSEntry), x ∈ l →
    ∀ c ∈ fileContents x, c ∈ fileContentsList l := by
  intro l
  induction l with
  | nil =>
    intro h
    cases h
  | cons e es ih =>
    intro hx c hc
    unfold fileContentsList
    rcases List.mem_cons.mp hx with rfl | hx
    · exact List.mem_append_left _ hc
    · exact List.mem_append_right _ (ih hx c hc)

theorem dirInputs_mem_list (ctx : BuildCtx) (rp : SegPath) (x : FSEntry) :
    ∀ (es : List FSEntry), x ∈ es →
    ∀ l ∈ dirInputs ctx (rp ++ [x.name]) x, l ∈ dirInputsList ctx rp es := by
  intro es
  induction es with
  | nil =>
    intro h
    cases h
  | cons e es ih =>
    intro hx l hl
    unfold dirInputsList
    rcases List.mem_cons.mp hx with rfl | hx
    · exact List.mem_append_left _ hl
    · exact List.mem_append_right _ (ih hx l hl)

theorem multiset_ne_of_middle_ne (u v : List String) (a b : String) (h : a ≠ b) :
    (↑(u ++ a :: v) : Multiset String) ≠ (↑(u ++ b :: v) : Multiset String) := by
  intro he
  have hp : (u ++ a :: v).Perm (u ++ b :: v) := Multiset.coe_eq_coe.mp he
  have hc := hp.count_eq a
  simp [List.count_append, List.count_cons, h] at hc

theorem traverseChildren_cons (ctx : BuildCtx) (rp : SegPath) (e : FSEntry)
    (es : List FSEntry) :
    traverseChildren ctx rp (e :: es)
      = match traverseAt ctx (rp ++ [e.name]) e with
        | none => traverseChildren ctx rp es
        | some (n, m) =>
          (n :: (traverseChildren ctx rp es).1, m ++ (traverseChildren ctx rp es).2) := rfl

theorem traverseChildren_append (ctx : BuildCtx) (rp : SegPath) (u v : List FSEntry) :
    traverseChildren ctx rp (u ++ v)
      = ((traverseChildren ctx rp u).1 ++ (traverseChildren ctx rp v).1,
         (traverseChildren ctx rp u).2 ++ (traverseChildren ctx rp v).2) := by
  induction u with
  | nil => simp [traverseChildren]
  | cons e es ih =>
    rw [List.cons_append, traverseChildren_cons, traverseChildren_cons]
    cases traverseAt ctx (rp ++ [FSEntry.name e]) e with
    | none =>
      dsimp only
      exact ih
    | some r =>
      obtain ⟨n, m⟩ := r
      dsimp only
      rw [ih]
      simp [List.append_assoc]

/-- The accumulated nodes-map entries of an optional traversal result. -/
def accOf : Option (MNode × List (SegPath × MNode)) → List (SegPath × MNode)
  | none => []
  | some r => r.2

mutual

theorem traverseAt_paths (ctx : BuildCtx) :
    ∀ (e : FSEntry) (rp : SegPath) (p : SegPath × MNode),
      p ∈ accOf (traverseAt ctx rp e) → ∃ t, p.1 = rp ++ t
  | .file nm c, rp, p, hp => by
    unfold traverseAt at hp
    split at hp
    · simp [accOf] at hp
    · simp only [accOf] at hp
      rw [List.mem_singleton] at hp
      subst hp
      exact ⟨[], by simp⟩
  | .dir nm es, rp, p, hp => by
    unfold traverseAt at hp
    split at hp
    · simp [accOf] at hp
    · simp only [accOf] at hp
      rcases List.mem_append.mp hp with hacc | hlast
      · obtain ⟨s, hs, t, ht⟩ := traverseChildren_paths ctx es rp p hacc
        exact ⟨s.name :: t, by rw [ht, List.append_assoc]; rfl⟩
      · rw [List.mem_singleton] at hlast
        subst hlast
        exact ⟨[], by simp⟩

theorem traverseChildren_paths (ctx : BuildCtx) :
    ∀ (es : List FSEntry) (rp : SegPath) (p : SegPath × MNode),
      p ∈ (traverseChildren ctx rp es).2 → ∃ s ∈ es, ∃ t, p.1 = (rp ++ [s.name]) ++ t
  | [], rp, p, hp => by
    simp [traverseChildren] at hp
  | e :: es, rp, p, hp => by
    rw [traverseChildren_cons] at hp
    cases he : traverseAt ctx (rp ++ [e.name]) e with
    | none =>
      rw [he] at hp
      dsimp only at hp
      obtain ⟨s, hs, t, ht⟩ := traverseChildren_paths ctx es rp p hp
      exact ⟨s, List.mem_cons_of_mem _ hs, t, ht⟩
    | some r =>
      rw [he] at hp
      obtain ⟨n, m⟩ := r
      dsimp only at hp
      rcases List.mem_append.mp hp with hm | hrest
      · obtain ⟨t, ht⟩ :=
          traverseAt_paths ctx e (rp ++ [e.name]) p (by rw [he]; simpa [accOf] using hm)
        exact ⟨e, List.mem_cons_self _ _, t, ht⟩
      · obtain ⟨s, hs, t, ht⟩ := traverseChildren_paths ctx es rp p hrest
        exact ⟨s, List.mem_cons_of_mem _ hs, t, ht⟩

end

/-- The node a directory traversal builds at a relative path. -/
def dirNode (ctx : BuildCtx) (rp : SegPath) (es : List FSEntry) : MNode :=
  { path := rp, type := .directory,
    childrenHash :=
      some (computeDirectoryHash ctx.digest ((traverseChildren ctx rp es).1.map fpM)),
    children := some (sortPaths ((traverseChildren ctx rp es).1.map (·.path))),
    lastAnalyzed := some ctx.now }

/-- The node a file traversal builds at a relative path. -/
def fileNode (ctx : BuildCtx) (rp : SegPath) (c : List Nat) : MNode :=
  { path := rp, type := .file, fileHash := some (ctx.fileDigest c),
    lastAnalyzed := some ctx.now }

theorem traverseAt_file (ctx : BuildCtx) (rp : SegPath) (nm : String) (c : List Nat)
    (hg : ¬(rp ≠ [] ∧ ctx.excl rp = true)) :
    traverseAt ctx rp (.file nm c) = some (fileNode ctx rp c, [(rp, fileNode ctx rp c)]) := by
  unfold traverseAt
  rw [if_neg hg]
  rfl

theorem traverseAt_dir (ctx : BuildCtx) (rp : SegPath) (nm : String) (es : List FSEntry)
    (hg : ¬(rp ≠ [] ∧ ctx.excl rp = true)) :
    traverseAt ctx rp (.dir nm es)
      = some (dirNode ctx rp es, (traverseChildren ctx rp es).2 ++ [(rp, dirNode ctx rp es)]) := by
  unfold traverseAt
  rw [if_neg hg]
  rfl

theorem dirInputs_dir (ctx : BuildCtx) (rp : SegPath) (nm : String) (es : List FSEntry)
    (hg : ¬(rp ≠ [] ∧ ctx.excl rp = true)) :
    dirInputs ctx rp (.dir nm es)
      = ((traverseChildren ctx rp es).1.map fpM) :: dirInputsList ctx rp es := by
  unfold dirInputs
  rw [if_neg hg]

theorem forall₂_imp_mem {α β : Type} {r r' : α → β → Prop} :
    ∀ {l₁ : List α} {l₂ : List β}, List.Forall₂ r l₁ l₂ →
    (∀ a b, a ∈ l₁ → r a b → r' a b) → List.Forall₂ r' l₁ l₂ := by
  intro l₁ l₂ h
  induction h with
  | nil =>
    intro _
    exact .nil
  | cons hab htail ih =>
    intro himp
    exact .cons (himp _ _ (List.mem_cons_self _ _) hab)
      (ih (fun a b ha => himp a b (List.mem_cons_of_mem _ ha)))

theorem seg_append_cancel (rp u v : SegPath) (h : rp ++ u = rp ++ v) : u = v := by
  induction rp with
  | nil => exact h
  | cons a rp ih =>
    injection h with _ h2
    exact ih h2

theorem extend_ne_self (rp : SegPath) (s : String) (t : SegPath) : (rp ++ [s]) ++ t ≠ rp := by
  intro h
  have hl := congrArg List.length h
  simp at hl

theorem head_of_extend_eq {rp : SegPath} {s₁ s₂ : String} {t₁ t₂ : SegPath}
    (h : (rp ++ [s₁]) ++ t₁ = (rp ++ [s₂]) ++ t₂) : s₁ = s₂ := by
  rw [List.append_assoc, List.append_assoc] at h
  have h2 := seg_append_cancel rp _ _ h
  injection h2

/-- Pairwise relation between the nodes maps of the two builds: identical
paths; along the spine the fingerprints differ; off the spine the entries
coincide. -/
def SpineRel (sp : List SegPath) (a b : SegPath × MNode) : Prop :=
  a.1 = b.1 ∧ (a.1 ∈ sp → fpM a.2 ≠ fpM b.2) ∧ (a.1 ∉ sp → a = b)

theorem forall₂_append_of {α β : Type} {r : α → β → Prop} {l₁ u₁ : List α} {l₂ u₂ : List β}
    (h : List.Forall₂ r l₁ l₂) (h' : List.Forall₂ r u₁ u₂) :
    List.Forall₂ r (l₁ ++ u₁) (l₂ ++ u₂) :=
  List.rel_append h h'

/-- Main induction: traversing two trees that differ in one leaf yields
differing fingerprints at the subtree root, and nodes maps related
pairwise by `SpineRel`: equal paths throughout, differing fingerprints on
the spine, identical entries off it.  The digest hypotheses require
injectivity only on the inputs that occur in the two traversals. -/
theorem diffOneLeaf_traverse (ctx : BuildCtx) :
    ∀ {e e' : FSEntry} {names : List String}, DiffOneLeaf e e' names →
    ∀ (rp : SegPath),
    spineOk ctx.excl rp names = true →
    wellNamed e = true →
    (∀ c ∈ fileContents e, ∀ c' ∈ fileContents e',
       ctx.fileDigest c = ctx.fileDigest c' → c = c') →
    (∀ l ∈ dirInputs ctx rp e, ∀ l' ∈ dirInputs ctx rp e',
       computeDirectoryHash ctx.digest l = computeDirectoryHash ctx.digest l' →
       (↑l : Multiset String) = (↑l' : Multiset String)) →
    ∃ n m n' m',
      traverseAt ctx rp e = some (n, m) ∧ traverseAt ctx rp e' = some (n', m') ∧
      fpM n ≠ fpM n' ∧
      List.Forall₂ (SpineRel (spine rp names)) m m' := by
  intro e e' names h
  induction h with
  | leaf hne =>
    rename_i nm c c'
    intro rp hsp hw hFile hDir
    have hguard : ¬(rp ≠ [] ∧ ctx.excl rp = true) := guard_false_of_ok (spineOk_head hsp)
    have hdig : ctx.fileDigest c ≠ ctx.fileDigest c' := by
      intro hEq
      refine hne (hFile c ?_ c' ?_ hEq)
      · unfold fileContents
        exact List.mem_singleton.mpr rfl
      · unfold fileContents
        exact List.mem_singleton.mpr rfl
    have hfp2 : fpM (fileNode ctx rp c) ≠ fpM (fileNode ctx rp c') := by
      unfold fpM fileNode
      dsimp only
      rw [jsOrS3_some_none, jsOrS3_some_none]
      exact hdig
    refine ⟨fileNode ctx rp c, [(rp, fileNode ctx rp c)],
        fileNode ctx rp c', [(rp, fileNode ctx rp c')],
        traverseAt_file ctx rp nm c hguard, traverseAt_file ctx rp nm c' hguard, hfp2, ?_⟩
    refine List.Forall₂.cons ⟨rfl, fun _ => hfp2, ?_⟩ List.Forall₂.nil
    intro hmem
    exact absurd (show rp ∈ spine rp [] from List.mem_singleton.mpr rfl) hmem
  | node hsub ih =>
    rename_i nm pre post x x' names'
    intro rp hsp hw hFile hDir
    have hname : x.name = x'.name := hsub.name_eq
    have hguard : ¬(rp ≠ [] ∧ ctx.excl rp = true) := guard_false_of_ok (spineOk_head hsp)
    have hsp' : spineOk ctx.excl (rp ++ [x.name]) names' = true := by
      rw [spineOk_cons, Bool.and_eq_true] at hsp
      exact hsp.2
    obtain ⟨hnodup, hwlist⟩ := wellNamed_dir hw
    have hwx : wellNamed x = true := wellNamedList_mem _ hwlist x (by simp)
    have hFx : ∀ c ∈ fileContents x, ∀ c' ∈ fileContents x',
        ctx.fileDigest c = ctx.fileDigest c' → c = c' := by
      intro c hc c' hc' hEq
      refine hFile c ?_ c' ?_ hEq
      · unfold fileContents
        exact fileContents_mem_list x _ (by simp) c hc
      · unfold fileContents
        exact fileContents_mem_list x' _ (by simp) c' hc'
    have hDx : ∀ l ∈ dirInputs ctx (rp ++ [x.name]) x,
        ∀ l' ∈ dirInputs ctx (rp ++ [x.name]) x',
        computeDirectoryHash ctx.digest l = computeDirectoryHash ctx.digest l' →
        (↑l : Multiset String) = (↑l' : Multiset String) := by
      intro l hl l' hl' hEq
      refine hDir l ?_ l' ?_ hEq
      · rw [dirInputs_dir ctx rp nm _ hguard]
        exact List.mem_cons_of_mem _ (dirInputs_mem_list ctx rp x _ (by simp) l hl)
      · rw [dirInputs_dir ctx rp nm _ hguard]
        refine List.mem_cons_of_mem _ (dirInputs_mem_list ctx rp x' _ (by simp) l' ?_)
        rw [← hname]
        exact hl'
    obtain ⟨nx, mx, nx', mx', hx, hx', hfp, hF⟩ := ih (rp ++ [x.name]) hsp' hwx hFx hDx
    have hx'' : traverseAt ctx (rp ++ [x'.name]) x' = some (nx', mx') := by
      rw [← hname]
      exact hx'
    have hTe : traverseChildren ctx rp (pre ++ x :: post)
        = ((traverseChildren ctx rp pre).1 ++ nx :: (traverseChildren ctx rp post).1,
           (traverseChildren ctx rp pre).2 ++ (mx ++ (traverseChildren ctx rp post).2)) := by
      rw [traverseChildren_append, traverseChildren_cons, hx]
    have hTe' : traverseChildren ctx rp (pre ++ x' :: post)
        = ((traverseChildren ctx rp pre).1 ++ nx' :: (traverseChildren ctx rp post).1,
           (traverseChildren ctx rp pre).2 ++ (mx' ++ (traverseChildren ctx rp post).2)) := by
      rw [traverseChildren_append, traverseChildren_cons, hx'']
    have e1 : fpM (dirNode ctx rp (pre ++ x :: post))
        = computeDirectoryHash ctx.digest
            ((traverseChildren ctx rp (pre ++ x :: post)).1.map fpM) := by
      unfold fpM dirNode
      dsimp only
      exact jsOrS3_none_some _
    have e1' : fpM (dirNode ctx rp (pre ++ x' :: post))
        = computeDirectoryHash ctx.digest
            ((traverseChildren ctx rp (pre ++ x' :: post)).1.map fpM) := by
      unfold fpM dirNode
      dsimp only
      exact jsOrS3_none_some _
    have memE : ((traverseChildren ctx rp (pre ++ x :: post)).1.map fpM)
        ∈ dirInputs ctx rp (FSEntry.dir nm (pre ++ x :: post)) := by
      rw [dirInputs_dir ctx rp nm _ hguard]
      exact List.mem_cons_self _ _
    have memE' : ((traverseChildren ctx rp (pre ++ x' :: post)).1.map fpM)
        ∈ dirInputs ctx rp (FSEntry.dir nm (pre ++ x' :: post)) := by
      rw [dirInputs_dir ctx rp nm _ hguard]
      exact List.mem_cons_self _ _
    have hfpRoot : fpM (dirNode ctx rp (pre ++ x :: post))
        ≠ fpM (dirNode ctx rp (pre ++ x' :: post)) := by
      intro hcontra
      rw [e1, e1'] at hcontra
      have hmul := hDir _ memE _ memE' hcontra
      rw [hTe, hTe'] at hmul
      dsimp only at hmul
      rw [List.map_append, List.map_cons, List.map_append, List.map_cons] at hmul
      exact multiset_ne_of_middle_ne _ _ _ _ hfp hmul
    have hnodup2 : (pre.map FSEntry.name).Nodup
        ∧ (x.name :: post.map FSEntry.name).Nodup
        ∧ (pre.map FSEntry.name).Disjoint (x.name :: post.map FSEntry.name) := by
      rw [List.map_append, List.map_cons, List.nodup_append] at hnodup
      exact hnodup
    have hpre : ∀ s ∈ pre, FSEntry.name s ≠ x.name := by
      intro s hs hEq
      exact hnodup2.2.2 (List.mem_map_of_mem _ hs)
        (by rw [hEq]; exact List.mem_cons_self _ _)
    have hpost : ∀ s ∈ post, FSEntry.name s ≠ x.name := by
      intro s hs hEq
      have h2 := List.nodup_cons.mp hnodup2.2.1
      exact h2.1 (by rw [← hEq]; exact List.mem_map_of_mem _ hs)
    have hoff : ∀ (es₀ : List FSEntry), (∀ s ∈ es₀, FSEntry.name s ≠ x.name) →
        List.Forall₂ (SpineRel (rp :: spine (rp ++ [x.name]) names'))
          (traverseChildren ctx rp es₀).2 (traverseChildren ctx rp es₀).2 := by
      intro es₀ hns
      refine List.forall₂_same.mpr ?_
      intro a ha
      obtain ⟨s, hs, t, ht⟩ := traverseChildren_paths ctx es₀ rp a ha
      have hnot : a.1 ∉ rp :: spine (rp ++ [x.name]) names' := by
        intro hmem
        rcases List.mem_cons.mp hmem with h0 | hsp2
        · exact extend_ne_self rp s.name t (ht.symm.trans h0)
        · obtain ⟨t', ht'⟩ := spine_mem names' (rp ++ [x.name]) a.1 hsp2
          exact hns s hs (head_of_extend_eq (ht.symm.trans ht'))
      exact ⟨rfl, fun hmem => (hnot hmem).elim, fun _ => rfl⟩
    have hmx2 : List.Forall₂ (SpineRel (rp :: spine (rp ++ [x.name]) names')) mx mx' := by
      refine forall₂_imp_mem hF ?_
      intro a b ha hr
      obtain ⟨t, ht⟩ := traverseAt_paths ctx x (rp ++ [x.name]) a (by rw [hx]; exact ha)
      have hnrp : a.1 ≠ rp := by
        rw [ht]
        exact extend_ne_self rp x.name t
      obtain ⟨hpath, hin, hout⟩ := hr
      refine ⟨hpath, ?_, ?_⟩
      · intro hmem
        rcases List.mem_cons.mp hmem with h0 | h1
        · exact absurd h0 hnrp
        · exact hin h1
      · intro hmem
        exact hout (fun h1 => hmem (List.mem_cons_of_mem _ h1))
    have hlast : List.Forall₂ (SpineRel (rp :: spine (rp ++ [x.name]) names'))
        [(rp, dirNode ctx rp (pre ++ x :: post))]
        [(rp, dirNode ctx rp (pre ++ x' :: post))] := by
      refine List.Forall₂.cons ⟨rfl, fun _ => hfpRoot, ?_⟩ List.Forall₂.nil
      intro hmem
      exact absurd (List.mem_cons_self _ _) hmem
    refine ⟨dirNode ctx rp (pre ++ x :: post),
        (traverseChildren ctx rp (pre ++ x :: post)).2
          ++ [(rp, dirNode ctx rp (pre ++ x :: post))],
        dirNode ctx rp (pre ++ x' :: post),
        (traverseChildren ctx rp (pre ++ x' :: post)).2
          ++ [(rp, dirNode ctx rp (pre ++ x' :: post))],
        traverseAt_dir ctx rp nm _ hguard, traverseAt_dir ctx rp nm _ hguard, hfpRoot, ?_⟩
    rw [hTe, hTe']
    dsimp only
    show List.Forall₂ (SpineRel (rp :: spine (rp ++ [x.name]) names')) _ _
    exact forall₂_append_of
      (forall₂_append_of (hoff pre hpre) (forall₂_append_of hmx2 (hoff post hpost)))
      hlast

/-- C2: for two directory trees identical except for the raw bytes of one
leaf file (`DiffOneLeaf`, the spine of changed paths running from the root
`[]` = "." down to that leaf), `buildCodeMerkleTree` relates the two nodes
maps entry by entry: same paths in the same order; the leaf and every
ancestor directory up to the root — exactly the paths on the spine — get
differing fingerprints, and every other node is returned unchanged.
Injectivity of the digests is assumed only on the inputs that occur in
the two builds; the spine must not be excluded and sibling names are
distinct. -/
theorem buildCodeMerkleTree_diffOneLeaf (ctx : BuildCtx) (T T' : FSEntry)
    (names : List String)
    (hdiff : DiffOneLeaf T T' names)
    (hsp : spineOk ctx.excl [] names = true)
    (hw : wellNamed T = true)
    (hFile : ∀ c ∈ fileContents T, ∀ c' ∈ fileContents T',
      ctx.fileDigest c = ctx.fileDigest c' → c = c')
    (hDir : ∀ l ∈ dirInputs ctx [] T, ∀ l' ∈ dirInputs ctx [] T',
      computeDirectoryHash ctx.digest l = computeDirectoryHash ctx.digest l' →
      (↑l : Multiset String) = (↑l' : Multiset String)) :
    List.Forall₂ (SpineRel (spine [] names))
      (buildCodeMerkleTree ctx T).1 (buildCodeMerkleTree ctx T').1 := by
  obtain ⟨n, m, n', m', hT, hT', hfp, hF⟩ :=
    diffOneLeaf_traverse ctx hdiff [] hsp hw hFile hDir
  unfold buildCodeMerkleTree
  rw [hT, hT']
  exact hF

/-- Concrete build context for the C2 witness: distinguishable digests,
nothing excluded. -/
def ctxC2W : BuildCtx :=
  { fileDigest := fun c => if c = [0] then "D0" else "D1",
    digest := fun s => s,
    excl := fun _ => false,
    now := "t" }

/-- C2 witness tree: a root directory holding one file with byte 0. -/
def TC2W : FSEntry := .dir "root" [.file "a" [0]]

/-- C2 witness tree after the one-leaf change: the same file with byte 1. -/
def TC2W' : FSEntry := .dir "root" [.file "a" [1]]

theorem buildCodeMerkleTree_diffOneLeaf_witness :
    List.Forall₂ (SpineRel (spine [] ["a"]))
      (buildCodeMerkleTree ctxC2W TC2W).1 (buildCodeMerkleTree ctxC2W TC2W').1 :=
  buildCodeMerkleTree_diffOneLeaf ctxC2W TC2W TC2W' ["a"]
    (@DiffOneLeaf.node "root" [] [] (.file "a" [0]) (.file "a" [1]) []
      (DiffOneLeaf.leaf (by decide)))
    (by decide) (by decide) (by decide) (by decide)

end CodeDocs
